import Mathlib

/-!
Verification of the dependency-graph resolution engine of the `compartment`
package (file `src/lib/compartment.js`, the current version of the library).

The JavaScript code is shallowly embedded: the mutable instance state
(`this.manifest`, `this.types`, `this.chain`) becomes an explicit record
`CState` threaded through every operation, JS objects become insertion-ordered
association lists over `String` keys, thrown exceptions become an error value
returned together with the state at the moment of the throw (JS exceptions do
not roll back mutations), and the unbounded recursion of `addDependency` is
indexed by fuel, with a distinguished `diverge` outcome when the fuel runs out
(modelling non-termination / stack overflow).
-/

set_option linter.unusedVariables false

namespace Compartment

/-- A component record of the manifest, mirroring the fields the code reads:
`name`, `category`, `require`, `provide`, `priority`, `source`, and the `key`
field that `getComponent` stamps onto the record.  Fields that a manifest
loaded from JSON may simply lack are `Option`s; an absent or `null` JS value
is `none`. -/
structure Component where
  name : Option String
  category : Option String
  require : List String
  provide : List String
  priority : Option Int
  source : List (String × List String)
  key : Option String
  deriving DecidableEq

/-- Lookup in a JS object modelled as an insertion-ordered association list. -/
def alookup {α : Type} : List (String × α) → String → Option α
  | [], _ => none
  | e :: es, k => if e.1 = k then some e.2 else alookup es k

/-- Replace the value stored under an existing key, keeping its position.
This models mutating in place a record that the object maps `k` to. -/
def updateA {α : Type} (m : List (String × α)) (k : String) (v : α) : List (String × α) :=
  m.map (fun e => if e.1 = k then (k, v) else e)

/-- JS object assignment `obj[k] = v`: an existing key keeps its insertion
position and gets the new value; a new key is appended at the end. -/
def objInsert {α : Type} (m : List (String × α)) (k : String) (v : α) : List (String × α) :=
  if (alookup m k).isSome then updateA m k v else m ++ [(k, v)]

/-- The errors thrown by `compartment.js` (`throw new Error(...)`). -/
inductive JsError where
  | componentNotFound (key : String)
  | chainNotBuilt
  | unknownType (t : String)
  deriving DecidableEq

/-- Outcome of a fuel-indexed stateful computation: normal result, thrown
error, or fuel exhaustion (`diverge` models unbounded recursion). -/
inductive JsOut (α : Type) where
  | ok (a : α)
  | err (e : JsError)
  | diverge
  deriving DecidableEq

/-- The mutable instance state of a `Compartment` object: the manifest, the
type registry, and the most recently generated chain. -/
structure CState where
  manifest : List (String × Component)
  types : List (String × String)
  chain : List (String × Component)
  deriving DecidableEq

instance {ε α : Type} [DecidableEq ε] [DecidableEq α] : DecidableEq (Except ε α) := fun a b =>
  match a, b with
  | Except.error e₁, Except.error e₂ =>
    if h : e₁ = e₂ then Decidable.isTrue (by rw [h])
    else Decidable.isFalse (fun hc => h (by injection hc))
  | Except.error _, Except.ok _ => Decidable.isFalse (fun hc => Except.noConfusion hc)
  | Except.ok _, Except.error _ => Decidable.isFalse (fun hc => Except.noConfusion hc)
  | Except.ok a₁, Except.ok a₂ =>
    if h : a₁ = a₂ then Decidable.isTrue (by rw [h])
    else Decidable.isFalse (fun hc => h (by injection hc))

/-- A fresh instance: the constructor sets `manifest`, `types` and `chain`
to empty objects. -/
def freshState : CState := ⟨[], [], []⟩

/-- `addType(type, path)`: registers a type with root path `path || ''`. -/
def addType (s : CState) (t root : String) : CState :=
  { s with types := objInsert s.types t root }

/-- The `components` argument of `buildChain`: omitted, a string, or an
array of keys. -/
inductive Selection where
  | omitted
  | str (v : String)
  | list (l : List String)

/-- The `category` argument of `buildChain`: omitted, a string, or an
array of category names. -/
inductive CategoryFilter where
  | none
  | str (v : String)
  | arr (l : List String)
  deriving DecidableEq

/-- The selection normalisation at the top of `buildChain`: a falsy value
(omitted, or the empty string) means every manifest key; a non-array (i.e. a
string) is split on `','`; an array is taken as is (an empty array is truthy
in JS, so it is kept and yields an empty chain). -/
def normalizeSelection (s : CState) : Selection → List String
  | Selection.omitted => s.manifest.map Prod.fst
  | Selection.str v => if v = "" then s.manifest.map Prod.fst else v.splitOn ","
  | Selection.list l => l

/-- `getComponent(key)`: throws `Invalid component` when the key is absent,
otherwise stamps `component.key = key` on the stored record (an in-place
mutation of the manifest record) and returns it. -/
def getComponent (s : CState) (k : String) : Except JsError Component × CState :=
  match alookup s.manifest k with
  | none => (Except.error (JsError.componentNotFound k), s)
  | some c =>
    let c' := { c with key := some k }
    (Except.ok c', { s with manifest := updateA s.manifest k c' })

/-- The `components.forEach(... list.push(this.getComponent(key)) ...)` loop
of `sortChain`: looks every key up (stamping it), collecting the records;
the first missing key aborts with the thrown error. -/
def getComponents : CState → List String → Except JsError (List Component) × CState
  | s, [] => (Except.ok [], s)
  | s, k :: ks =>
    match getComponent s k with
    | (Except.error e, s') => (Except.error e, s')
    | (Except.ok c, s₁) =>
      match getComponents s₁ ks with
      | (Except.error e, s') => (Except.error e, s')
      | (Except.ok cs, s₂) => (Except.ok (c :: cs), s₂)

/-- `a.priority || 100` of the sort comparator: `null` (absent) and `0` are
falsy in JS, so both fall back to the sentinel `100`. -/
def jsPriority (c : Component) : Int :=
  match c.priority with
  | some p => if p = 0 then 100 else p
  | none => 100

/-- The key a record is filed under in the chain object: `value.key`.  All
records reaching this point have been stamped by `getComponent`, so the
`getD` default is never used on reachable states. -/
def compKey (c : Component) : String := c.key.getD ""

/-- `a.name || a.key` of the sort comparator: an absent or empty `name`
falls back to the stamped `key`. -/
def jsName (c : Component) : String :=
  match c.name with
  | some n => if n = "" then compKey c else n
  | none => compKey c

/-- Code-point lexicographic "less or equal" on character lists, modelling
the sign of `x2.localeCompare(y2)` (collation taken as code-point order). -/
def charsLe : List Char → List Char → Bool
  | [], _ => true
  | _ :: _, [] => false
  | a :: as, b :: bs => if a < b then true else if b < a then false else charsLe as bs

/-- The string comparison used for tie-breaking in the sort comparator. -/
def strLe (a b : String) : Bool := charsLe a.data b.data

theorem charsLe_total : ∀ a b, charsLe a b = true ∨ charsLe b a = true := by
  intro a
  induction a with
  | nil => intro b; exact Or.inl rfl
  | cons x xs ih =>
    intro b
    cases b with
    | nil => exact Or.inr rfl
    | cons y ys =>
      rcases lt_trichotomy x y with h | h | h
      · left
        simp [charsLe, h]
      · subst h
        rcases ih ys with h' | h'
        · left
          simp [charsLe, lt_irrefl, h']
        · right
          simp [charsLe, lt_irrefl, h']
      · right
        simp [charsLe, h]

theorem charsLe_trans : ∀ a b c, charsLe a b = true → charsLe b c = true →
    charsLe a c = true := by
  intro a
  induction a with
  | nil => intro b c h₁ h₂; rfl
  | cons x xs ih =>
    intro b c h₁ h₂
    cases b with
    | nil => simp [charsLe] at h₁
    | cons y ys =>
      cases c with
      | nil => simp [charsLe] at h₂
      | cons z zs =>
        rcases lt_trichotomy x y with hxy | hxy | hxy
        · rcases lt_trichotomy y z with hyz | hyz | hyz
          · simp [charsLe, hxy.trans hyz]
          · subst hyz
            simp [charsLe, hxy]
          · simp [charsLe, hyz, asymm hyz] at h₂
        · subst hxy
          simp only [charsLe, lt_irrefl, if_false] at h₁
          rcases lt_trichotomy x z with hyz | hyz | hyz
          · simp [charsLe, hyz]
          · subst hyz
            simp only [charsLe, lt_irrefl, if_false] at h₂ ⊢
            exact ih ys zs h₁ h₂
          · simp [charsLe, hyz, asymm hyz] at h₂
        · simp [charsLe, hxy, asymm hxy] at h₁

/-- The total preorder induced by the `sortChain` comparator
`(x < y) ? -1 : ((x > y) ? 1 : x2.localeCompare(y2))` with
`x = priority || 100` and `x2 = name || key`. -/
def chainLE (a b : Component) : Prop :=
  jsPriority a < jsPriority b ∨
    (jsPriority a = jsPriority b ∧ strLe (jsName a) (jsName b) = true)

instance : DecidableRel chainLE := fun a b => by
  unfold chainLE; infer_instance

instance : IsTotal Component chainLE where
  total a b := by
    unfold chainLE
    rcases lt_trichotomy (jsPriority a) (jsPriority b) with h | h | h
    · exact Or.inl (Or.inl h)
    · rcases charsLe_total (jsName a).data (jsName b).data with h2 | h2
      · exact Or.inl (Or.inr ⟨h, h2⟩)
      · exact Or.inr (Or.inr ⟨h.symm, h2⟩)
    · exact Or.inr (Or.inl h)

instance : IsTrans Component chainLE where
  trans a b c hab hbc := by
    rcases hab with h1 | ⟨h1, h1'⟩ <;> rcases hbc with h2 | ⟨h2, h2'⟩
    · exact Or.inl (h1.trans h2)
    · exact Or.inl (h2 ▸ h1)
    · exact Or.inl (h1 ▸ h2)
    · exact Or.inr ⟨h1.trans h2, charsLe_trans _ _ _ h1' h2'⟩

/-- The `sorted.forEach(function(value) { chain[value.key] = value; })` loop
building the chain object from the sorted record list. -/
def objFoldAux : List (String × Component) → List Component → List (String × Component)
  | m, [] => m
  | m, c :: cs => objFoldAux (objInsert m (compKey c) c) cs

/-- `sortChain(components)`: collect the records via `getComponent`, sort
them with the comparator (JS `Array.prototype.sort` is stable, as is
insertion sort), and file them into a fresh object keyed by `value.key`. -/
def sortChain (s : CState) (keys : List String) : Except JsError (List (String × Component)) × CState :=
  match getComponents s keys with
  | (Except.error e, s') => (Except.error e, s')
  | (Except.ok list, s₁) => (Except.ok (objFoldAux [] (List.insertionSort chainLE list)), s₁)

/-- The `component.require.forEach(addDependency)` /
`component.provide.forEach(addDependency)` loops: each key is looked up via
`getComponent` and fed to the recursive step `f`; a thrown error or fuel
exhaustion aborts the loop, returning the state at that moment. -/
def stepKeys (f : CState → Component → JsOut Unit × CState) : CState → List String → JsOut Unit × CState
  | s, [] => (JsOut.ok (), s)
  | s, k :: ks =>
    match getComponent s k with
    | (Except.error e, s') => (JsOut.err e, s')
    | (Except.ok c, s₁) =>
      match f s₁ c with
      | (JsOut.ok _, s₂) => stepKeys f s₂ ks
      | r => r

/-- `addDependency(component)`: return if the key is already in the chain,
otherwise recurse into `require`, insert the record, then recurse into
`provide`.  The JS recursion has no in-progress marker, so a dependency
cycle recurses unboundedly; the fuel makes that observable as `diverge`. -/
def addDependency : Nat → CState → Component → JsOut Unit × CState
  | 0, s, _ => (JsOut.diverge, s)
  | Nat.succ fuel, s, c =>
    let key := compKey c
    if (alookup s.chain key).isSome then (JsOut.ok (), s)
    else
      match stepKeys (addDependency fuel) s c.require with
      | (JsOut.ok _, s₁) =>
        let s₂ := { s₁ with chain := objInsert s₁.chain key c }
        stepKeys (addDependency fuel) s₂ c.provide
      | r => r

/-- The `Object.keys(chain).forEach(... this.addDependency(chain[key]) ...)`
loop of `buildChain`, iterating the sorted records in chain-object order. -/
def runAll (f : CState → Component → JsOut Unit × CState) : CState → List Component → JsOut Unit × CState
  | s, [] => (JsOut.ok (), s)
  | s, c :: cs =>
    match f s c with
    | (JsOut.ok _, s₁) => runAll f s₁ cs
    | r => r

/-- Truthiness of the `category` argument: `if (category)` skips the whole
filter pass for an omitted filter and for the empty string. -/
def filterTruthy : CategoryFilter → Bool
  | CategoryFilter.none => false
  | CategoryFilter.str v => v ≠ ""
  | CategoryFilter.arr _ => true

/-- One entry of the category filter pass: the entry is deleted when
`!value.category`, or the string filter differs from the category, or the
array filter does not contain it; `keepEntry` is the kept side. -/
def keepEntry (f : CategoryFilter) (c : Component) : Bool :=
  match c.category with
  | Option.none => false
  | some cat =>
    if cat = "" then false
    else
      match f with
      | CategoryFilter.none => true
      | CategoryFilter.str v => cat = v
      | CategoryFilter.arr l => l.contains cat

/-- The category filter pass of `buildChain` over the built chain
(`Object.keys` snapshots the keys, so deleting while iterating is safe and
keeps the relative order of survivors). -/
def applyFilter (f : CategoryFilter) (chain : List (String × Component)) : List (String × Component) :=
  if filterTruthy f then chain.filter (fun e => keepEntry f e.2) else chain

/-- `buildChain(components, category)`: normalise the selection, reset the
chain, sort the selected records, expand dependencies, then filter by
category.  The `emit` calls notify observers and do not affect the state. -/
def buildChainF (fuel : Nat) (s : CState) (sel : Selection) (cat : CategoryFilter) : JsOut Unit × CState :=
  let comps := normalizeSelection s sel
  let s₀ : CState := { s with chain := [] }
  match sortChain s₀ comps with
  | (Except.error e, s') => (JsOut.err e, s')
  | (Except.ok obj, s₁) =>
    match runAll (addDependency fuel) s₁ (obj.map Prod.snd) with
    | (JsOut.ok _, s₂) => (JsOut.ok (), { s₂ with chain := applyFilter cat s₂.chain })
    | r => r

/-- A JS object is always truthy, even when empty, so the
`if (!chain) throw 'Chain must be generated using buildChain()'` guard of
`getPaths` can never fire: `this.chain` is initialised to `{}` by the
constructor and only ever replaced by objects. -/
def chainFalsy (chain : List (String × Component)) : Bool := false

/-- `value.source[type]`: the per-type path list, absent types giving
nothing (an empty declared list is truthy in JS, but concatenating it is
also a no-op, so `getD []` is faithful). -/
def sourcePaths (c : Component) (t : String) : List String :=
  (alookup c.source t).getD []

/-- `getPaths(type)` on the instance chain: dead `ChainNotBuilt` guard,
`Invalid type` for an unregistered type, then the concatenation of every
chain entry's declared paths for the type, each prefixed with the root. -/
def getPaths (s : CState) (t : String) : JsOut (List String) × CState :=
  if chainFalsy s.chain then (JsOut.err JsError.chainNotBuilt, s)
  else
    match alookup s.types t with
    | none => (JsOut.err (JsError.unknownType t), s)
    | some root =>
      let paths := s.chain.foldl (fun acc e => acc ++ sourcePaths e.2 t) []
      (JsOut.ok (paths.map (fun p => root ++ p)), s)

/-! ### Specification-side views of the state -/

/-- A component record with the stamped `key` field forgotten; two records
are the "same manifest content" when they agree after `stripKey`. -/
def stripKey (c : Component) : Component := { c with key := none }

/-- Manifest lookup up to key stamping. -/
def mlook (m : List (String × Component)) (k : String) : Option Component :=
  (alookup m k).map stripKey

/-- The ordered key list of the instance chain. -/
def chainKeys (s : CState) : List String := s.chain.map Prod.fst

/-! ### Association-list lemmas -/

theorem alookup_none_iff {α : Type} (m : List (String × α)) (k : String) :
    alookup m k = none ↔ k ∉ m.map Prod.fst := by
  induction m with
  | nil => simp [alookup]
  | cons e es ih =>
    by_cases h : e.1 = k
    · simp [alookup, h]
    · simp [alookup, h, ih, Ne.symm h]

theorem alookup_isSome_iff {α : Type} (m : List (String × α)) (k : String) :
    (alookup m k).isSome = true ↔ k ∈ m.map Prod.fst := by
  rw [Option.isSome_iff_ne_none, not_iff_comm, alookup_none_iff]

theorem alookup_mem {α : Type} {m : List (String × α)} {k : String} {v : α}
    (h : alookup m k = some v) : (k, v) ∈ m := by
  induction m with
  | nil => simp [alookup] at h
  | cons e es ih =>
    obtain ⟨k₁, v₁⟩ := e
    by_cases he : k₁ = k
    · subst he
      simp only [alookup, if_pos] at h
      injection h with h
      subst h
      exact List.mem_cons_self _ _
    · simp only [alookup, he, if_false] at h
      exact List.mem_cons_of_mem _ (ih h)

theorem alookup_updateA_self {α : Type} {m : List (String × α)} {k : String} {c : α}
    (h : alookup m k = some c) (v : α) : alookup (updateA m k v) k = some v := by
  induction m with
  | nil => simp [alookup] at h
  | cons e es ih =>
    obtain ⟨k₁, v₁⟩ := e
    simp only [updateA, List.map_cons]
    by_cases he : k₁ = k
    · simp [alookup, he]
    · simp only [alookup, he, if_false] at h
      have hh := ih h
      simp only [updateA] at hh
      simp [alookup, he, hh]

theorem alookup_updateA_ne {α : Type} (m : List (String × α)) {k k' : String} (v : α)
    (h : k' ≠ k) : alookup (updateA m k v) k' = alookup m k' := by
  induction m with
  | nil => simp [updateA, alookup]
  | cons e es ih =>
    obtain ⟨k₁, v₁⟩ := e
    simp only [updateA, List.map_cons] at ih ⊢
    by_cases he : k₁ = k
    · simp [alookup, he, Ne.symm h, ih]
    · by_cases he' : k₁ = k'
      · simp [alookup, he, he', h]
      · simp [alookup, he, he', ih]

theorem updateA_map_fst {α : Type} (m : List (String × α)) (k : String) (v : α) :
    (updateA m k v).map Prod.fst = m.map Prod.fst := by
  induction m with
  | nil => rfl
  | cons e es ih =>
    by_cases he : e.1 = k
    · simp [updateA, he] at ih ⊢
      exact ih
    · simp [updateA, he] at ih ⊢
      exact ih

theorem updateA_eq_self {α : Type} {m : List (String × α)} {k : String} {v : α}
    (h : ∀ v', (k, v') ∈ m → v' = v) : updateA m k v = m := by
  induction m with
  | nil => rfl
  | cons e es ih =>
    obtain ⟨k₁, v₁⟩ := e
    have ih' := ih (fun v' hv => h v' (List.mem_cons_of_mem _ hv))
    simp only [updateA, List.map_cons] at ih' ⊢
    by_cases he : k₁ = k
    · subst he
      have hv : v₁ = v := h v₁ (List.mem_cons_self _ _)
      subst hv
      simp [ih']
    · simp [he, ih']

theorem mem_updateA {α : Type} {m : List (String × α)} {k k' : String} {v v' : α}
    (h : (k', v') ∈ updateA m k v) : (k', v') ∈ m ∨ (k' = k ∧ v' = v) := by
  induction m with
  | nil => simp [updateA] at h
  | cons e es ih =>
    simp only [updateA, List.map_cons, List.mem_cons] at h
    rcases h with h | h
    · by_cases he : e.1 = k
      · simp [he] at h
        exact Or.inr ⟨h.1, h.2⟩
      · simp [he] at h
        exact Or.inl (by simp [← h])
    · rcases ih h with h' | h'
      · exact Or.inl (List.mem_cons_of_mem _ h')
      · exact Or.inr h'

theorem objInsert_of_none {α : Type} {m : List (String × α)} {k : String} (v : α)
    (h : alookup m k = none) : objInsert m k v = m ++ [(k, v)] := by
  simp [objInsert, h]

theorem objInsert_of_some {α : Type} {m : List (String × α)} {k : String} (v : α)
    (h : (alookup m k).isSome) : objInsert m k v = updateA m k v := by
  simp [objInsert, h]

theorem alookup_append {α : Type} (m₁ m₂ : List (String × α)) (k : String) :
    alookup (m₁ ++ m₂) k = ((alookup m₁ k).rec (alookup m₂ k) (fun v => some v)) := by
  induction m₁ with
  | nil => simp [alookup]
  | cons e es ih =>
    by_cases he : e.1 = k
    · simp [alookup, he]
    · simp [alookup, he, ih]

theorem alookup_objInsert_self {α : Type} (m : List (String × α)) (k : String) (v : α) :
    alookup (objInsert m k v) k = some v := by
  by_cases h : (alookup m k).isSome
  · rw [objInsert_of_some v h]
    obtain ⟨c, hc⟩ := Option.isSome_iff_exists.mp h
    exact alookup_updateA_self hc v
  · rw [objInsert_of_none v (Option.not_isSome_iff_eq_none.mp h)]
    rw [alookup_append, Option.not_isSome_iff_eq_none.mp h]
    simp [alookup]

theorem alookup_objInsert_ne {α : Type} (m : List (String × α)) {k k' : String} (v : α)
    (h : k' ≠ k) : alookup (objInsert m k v) k' = alookup m k' := by
  by_cases hs : (alookup m k).isSome
  · rw [objInsert_of_some v hs]
    exact alookup_updateA_ne m v h
  · rw [objInsert_of_none v (Option.not_isSome_iff_eq_none.mp hs)]
    rw [alookup_append]
    cases hm : alookup m k' with
    | none => simp [alookup, Ne.symm h]
    | some c => simp

theorem mem_map_fst_objInsert {α : Type} {m : List (String × α)} {k k' : String} {v : α} :
    k' ∈ (objInsert m k v).map Prod.fst ↔ k' ∈ m.map Prod.fst ∨ k' = k := by
  by_cases hs : (alookup m k).isSome
  · rw [objInsert_of_some v hs, updateA_map_fst]
    constructor
    · exact Or.inl
    · rintro (h | rfl)
      · exact h
      · exact (alookup_isSome_iff m k').mp hs
  · rw [objInsert_of_none v (Option.not_isSome_iff_eq_none.mp hs)]
    simp

theorem nodup_map_fst_objInsert {α : Type} {m : List (String × α)} {k : String} {v : α}
    (h : (m.map Prod.fst).Nodup) : ((objInsert m k v).map Prod.fst).Nodup := by
  by_cases hs : (alookup m k).isSome
  · rwa [objInsert_of_some v hs, updateA_map_fst]
  · rw [objInsert_of_none v (Option.not_isSome_iff_eq_none.mp hs)]
    have hk : k ∉ m.map Prod.fst := (alookup_none_iff m k).mp (Option.not_isSome_iff_eq_none.mp hs)
    simp only [List.map_append, List.map_cons, List.map_nil]
    exact List.nodup_append.mpr ⟨h, List.nodup_singleton k, by simpa using hk⟩

theorem mem_objInsert {α : Type} {m : List (String × α)} {k k' : String} {v v' : α}
    (h : (k', v') ∈ objInsert m k v) : (k', v') ∈ m ∨ (k' = k ∧ v' = v) := by
  by_cases hs : (alookup m k).isSome
  · rw [objInsert_of_some v hs] at h
    exact mem_updateA h
  · rw [objInsert_of_none v (Option.not_isSome_iff_eq_none.mp hs)] at h
    rcases List.mem_append.mp h with h' | h'
    · exact Or.inl h'
    · simp at h'
      exact Or.inr h'

/-! ### Record-stamping lemmas -/

theorem stamp_self {c : Component} {k : String} (h : c.key = some k) :
    { c with key := some k } = c := by
  cases c
  simp_all

theorem stripKey_stamp (c : Component) (x : Option String) :
    stripKey { c with key := x } = stripKey c := by
  cases c
  rfl

theorem stamp_eq_of_stripKey_eq {c₁ c₂ : Component} (h : stripKey c₁ = stripKey c₂)
    (x : Option String) : { c₁ with key := x } = { c₂ with key := x } := by
  cases c₁
  cases c₂
  simp [stripKey] at h
  simp [h]

theorem stripKey_fields (c : Component) :
    (stripKey c).require = c.require ∧ (stripKey c).provide = c.provide ∧
    (stripKey c).name = c.name ∧ (stripKey c).category = c.category ∧
    (stripKey c).priority = c.priority ∧ (stripKey c).source = c.source := by
  cases c
  simp [stripKey]

/-! ### Frame invariants of a run -/

/-- What any step of resolution preserves: manifest lookups up to key
stamping, the manifest key order, already-stamped records verbatim, chain
membership (the chain only grows), key-uniqueness of the chain, and the type
registry. -/
def Evolves (s s' : CState) : Prop :=
  (∀ k, mlook s'.manifest k = mlook s.manifest k) ∧
  s'.manifest.map Prod.fst = s.manifest.map Prod.fst ∧
  (∀ k c, alookup s.manifest k = some c → c.key = some k → alookup s'.manifest k = some c) ∧
  (∀ k, k ∈ chainKeys s → k ∈ chainKeys s') ∧
  ((chainKeys s).Nodup → (chainKeys s').Nodup) ∧
  s'.types = s.types

theorem evolves_refl (s : CState) : Evolves s s :=
  ⟨fun _ => rfl, rfl, fun _ _ h _ => h, fun _ h => h, fun h => h, rfl⟩

theorem evolves_trans {s s₁ s₂ : CState} (h₁ : Evolves s s₁) (h₂ : Evolves s₁ s₂) :
    Evolves s s₂ := by
  obtain ⟨a₁, b₁, c₁, d₁, e₁, f₁⟩ := h₁
  obtain ⟨a₂, b₂, c₂, d₂, e₂, f₂⟩ := h₂
  exact ⟨fun k => (a₂ k).trans (a₁ k), b₂.trans b₁,
    fun k c h hk => c₂ k c (c₁ k c h hk) hk,
    fun k h => d₂ k (d₁ k h), fun h => e₂ (e₁ h), f₂.trans f₁⟩

/-- Adding an entry to the chain (and touching nothing else) evolves. -/
theorem evolves_chainInsert (s : CState) (k : String) (c : Component) :
    Evolves s { s with chain := objInsert s.chain k c } := by
  refine ⟨fun _ => rfl, rfl, fun _ _ h _ => h, ?_, ?_, rfl⟩
  · intro k' h
    exact mem_map_fst_objInsert.mpr (Or.inl h)
  · exact nodup_map_fst_objInsert

/-! ### `getComponent` lemmas -/

theorem getComponent_error {s : CState} {k : String} {e : JsError} {s' : CState}
    (h : getComponent s k = (Except.error e, s')) :
    e = JsError.componentNotFound k ∧ s' = s ∧ alookup s.manifest k = none := by
  unfold getComponent at h
  cases hm : alookup s.manifest k with
  | none =>
    rw [hm] at h
    simp only [Prod.mk.injEq] at h
    obtain ⟨h1, h2⟩ := h
    injection h1 with h1
    exact ⟨h1.symm, h2.symm, rfl⟩
  | some c =>
    rw [hm] at h
    simp at h

theorem getComponent_ok {s : CState} {k : String} {c : Component} {s' : CState}
    (h : getComponent s k = (Except.ok c, s')) :
    c.key = some k ∧
    alookup s'.manifest k = some c ∧
    mlook s.manifest k = some (stripKey c) ∧
    s'.chain = s.chain ∧
    Evolves s s' := by
  unfold getComponent at h
  cases hm : alookup s.manifest k with
  | none =>
    rw [hm] at h
    simp at h
  | some c₀ =>
    rw [hm] at h
    simp only [Prod.mk.injEq, Except.ok.injEq] at h
    obtain ⟨hc, hs⟩ := h
    subst hc
    subst hs
    refine ⟨rfl, alookup_updateA_self hm _, ?_, rfl, ?_, updateA_map_fst _ _ _, ?_, fun _ h => h, fun h => h, rfl⟩
    · simp [mlook, hm, stripKey_stamp]
    · intro k'
      by_cases hk : k' = k
      · subst hk
        simp [mlook, alookup_updateA_self hm, hm, stripKey_stamp]
      · simp [mlook, alookup_updateA_ne _ _ hk]
    · intro k₀ c₁ h₀ hkey
      by_cases hk : k₀ = k
      · subst hk
        rw [h₀] at hm
        injection hm with hm
        subst hm
        rw [stamp_self hkey]
        exact alookup_updateA_self h₀ _
      · rw [alookup_updateA_ne _ _ hk]
        exact h₀

/-! ### Frame lemmas for the traversal -/

theorem stepKeys_evolves (f : CState → Component → JsOut Unit × CState)
    (hf : ∀ s c r s', f s c = (r, s') → Evolves s s') :
    ∀ s ks r s', stepKeys f s ks = (r, s') → Evolves s s' := by
  intro s ks
  induction ks generalizing s with
  | nil =>
    intro r s' h
    simp only [stepKeys, Prod.mk.injEq] at h
    exact h.2 ▸ evolves_refl s
  | cons k ks ih =>
    intro r s' h
    simp only [stepKeys] at h
    rcases hg : getComponent s k with ⟨res, s₀⟩
    rw [hg] at h
    cases res with
    | error e =>
      cases h
      have := getComponent_error hg
      exact this.2.1 ▸ evolves_refl s
    | ok c =>
      have hev₀ := (getComponent_ok hg).2.2.2.2
      dsimp only at h
      rcases hf' : f s₀ c with ⟨fr, s₁⟩
      rw [hf'] at h
      have hev₁ := hf _ _ _ _ hf'
      cases fr with
      | ok u => exact evolves_trans hev₀ (evolves_trans hev₁ (ih s₁ r s' h))
      | err e =>
        cases h
        exact evolves_trans hev₀ hev₁
      | diverge =>
        cases h
        exact evolves_trans hev₀ hev₁

theorem addDependency_evolves :
    ∀ fuel s c r s', addDependency fuel s c = (r, s') → Evolves s s' := by
  intro fuel
  induction fuel with
  | zero =>
    intro s c r s' h
    simp only [addDependency, Prod.mk.injEq] at h
    exact h.2 ▸ evolves_refl s
  | succ fuel ih =>
    intro s c r s' h
    simp only [addDependency] at h
    by_cases hg : (alookup s.chain (compKey c)).isSome
    · rw [if_pos hg] at h
      simp only [Prod.mk.injEq] at h
      exact h.2 ▸ evolves_refl s
    · rw [if_neg hg] at h
      rcases h₁ : stepKeys (addDependency fuel) s c.require with ⟨r₁, s₁⟩
      rw [h₁] at h
      have hev₁ := stepKeys_evolves _ ih _ _ _ _ h₁
      cases r₁ with
      | ok u =>
        have hev₂ := evolves_chainInsert s₁ (compKey c) c
        have hev₃ := stepKeys_evolves _ ih _ _ _ _ h
        exact evolves_trans hev₁ (evolves_trans hev₂ hev₃)
      | err e =>
        cases h
        exact hev₁
      | diverge =>
        cases h
        exact hev₁

theorem runAll_evolves (f : CState → Component → JsOut Unit × CState)
    (hf : ∀ s c r s', f s c = (r, s') → Evolves s s') :
    ∀ s cs r s', runAll f s cs = (r, s') → Evolves s s' := by
  intro s cs
  induction cs generalizing s with
  | nil =>
    intro r s' h
    simp only [runAll, Prod.mk.injEq] at h
    exact h.2 ▸ evolves_refl s
  | cons c cs ih =>
    intro r s' h
    simp only [runAll] at h
    rcases hf' : f s c with ⟨fr, s₁⟩
    rw [hf'] at h
    have hev₁ := hf _ _ _ _ hf'
    cases fr with
    | ok u => exact evolves_trans hev₁ (ih s₁ r s' h)
    | err e =>
      cases h
      exact hev₁
    | diverge =>
      cases h
      exact hev₁

theorem getComponents_evolves :
    ∀ s ks r s', getComponents s ks = (r, s') → Evolves s s' ∧ s'.chain = s.chain := by
  intro s ks
  induction ks generalizing s with
  | nil =>
    intro r s' h
    simp only [getComponents, Prod.mk.injEq] at h
    obtain ⟨h1, h2⟩ := h
    subst h2
    exact ⟨evolves_refl s, rfl⟩
  | cons k ks ih =>
    intro r s' h
    simp only [getComponents] at h
    rcases hg : getComponent s k with ⟨res, s₀⟩
    rw [hg] at h
    cases res with
    | error e =>
      cases h
      obtain ⟨he, hs, hl⟩ := getComponent_error hg
      subst hs
      exact ⟨evolves_refl _, rfl⟩
    | ok c =>
      obtain ⟨_, _, _, hch, hev₀⟩ := getComponent_ok hg
      dsimp only at h
      rcases h₂ : getComponents s₀ ks with ⟨res₂, s₁⟩
      rw [h₂] at h
      obtain ⟨hev₁, hch₁⟩ := ih s₀ res₂ s₁ h₂
      cases res₂ with
      | error e =>
        cases h
        exact ⟨evolves_trans hev₀ hev₁, hch₁.trans hch⟩
      | ok cs =>
        cases h
        exact ⟨evolves_trans hev₀ hev₁, hch₁.trans hch⟩

theorem sortChain_evolves {s : CState} {ks : List String} {r} {s' : CState}
    (h : sortChain s ks = (r, s')) : Evolves s s' ∧ s'.chain = s.chain := by
  unfold sortChain at h
  rcases hg : getComponents s ks with ⟨res, s₀⟩
  rw [hg] at h
  cases res with
  | error e =>
    cases h
    exact getComponents_evolves _ _ _ _ hg
  | ok list =>
    cases h
    exact getComponents_evolves _ _ _ _ hg

/-! ### Current records, closedness and minimality -/

/-- The record handed to `addDependency` is always the stamped record the
manifest currently stores under its own key (they are one JS object). -/
def Cur (s : CState) (c : Component) : Prop :=
  ∃ k, c.key = some k ∧ alookup s.manifest k = some c

theorem compKey_eq {c : Component} {k : String} (h : c.key = some k) : compKey c = k := by
  simp [compKey, h]

theorem cur_evolves {s s' : CState} {c : Component} (hc : Cur s c) (he : Evolves s s') :
    Cur s' c := by
  obtain ⟨k, hk, hl⟩ := hc
  exact ⟨k, hk, he.2.2.1 k c hl hk⟩

/-- Every key of the final chain that was not already in the chain comes from
the manifest, and its `require`/`provide` targets all end up in the final
chain as well. -/
def NewClosed (m : List (String × Component)) (s s' : CState) : Prop :=
  ∀ k, k ∈ chainKeys s' → k ∉ chainKeys s →
    ∃ c, mlook m k = some c ∧ (∀ r ∈ c.require, r ∈ chainKeys s') ∧
      (∀ p ∈ c.provide, p ∈ chainKeys s')

theorem newClosed_congr {m₁ m₂ : List (String × Component)} {s s' : CState}
    (hm : ∀ k, mlook m₁ k = mlook m₂ k) (h : NewClosed m₁ s s') : NewClosed m₂ s s' := by
  intro k h₁ h₂
  obtain ⟨c, hc, hr, hp⟩ := h k h₁ h₂
  exact ⟨c, (hm k).symm.trans hc, hr, hp⟩

/-- A set of keys closed under the `require` and `provide` edges of a
manifest. -/
def EdgeClosedS (m : List (String × Component)) (T : Set String) : Prop :=
  ∀ k, k ∈ T → ∀ c, mlook m k = some c →
    (∀ r ∈ c.require, r ∈ T) ∧ (∀ p ∈ c.provide, p ∈ T)

theorem edgeClosedS_congr {m₁ m₂ : List (String × Component)} {T : Set String}
    (hm : ∀ k, mlook m₁ k = mlook m₂ k) (h : EdgeClosedS m₁ T) : EdgeClosedS m₂ T := by
  intro k hk c hc
  exact h k hk c ((hm k).trans hc)

/-! ### Membership: every processed key ends up in the chain -/

theorem stepKeys_mem (fuel : Nat)
    (ihm : ∀ s c u s', addDependency fuel s c = (JsOut.ok u, s') →
      ∀ k, c.key = some k → k ∈ chainKeys s') :
    ∀ s ks u s', stepKeys (addDependency fuel) s ks = (JsOut.ok u, s') →
      ∀ k ∈ ks, k ∈ chainKeys s' := by
  intro s ks
  induction ks generalizing s with
  | nil =>
    intro u s' h k hk
    simp at hk
  | cons k₀ ks ih =>
    intro u s' h k hk
    simp only [stepKeys] at h
    rcases hg : getComponent s k₀ with ⟨res, s₀⟩
    rw [hg] at h
    cases res with
    | error e => simp at h
    | ok c =>
      dsimp only at h
      rcases hf : addDependency fuel s₀ c with ⟨fr, s₁⟩
      rw [hf] at h
      cases fr with
      | ok u₁ =>
        rcases List.mem_cons.mp hk with rfl | hk'
        · have hmem := ihm _ _ _ _ hf k (getComponent_ok hg).1
          exact (stepKeys_evolves _ (addDependency_evolves fuel) _ _ _ _ h).2.2.2.1 k hmem
        · exact ih s₁ u s' h k hk'
      | err e => simp at h
      | diverge => simp at h

theorem addDependency_mem :
    ∀ fuel s c u s', addDependency fuel s c = (JsOut.ok u, s') →
      ∀ k, c.key = some k → k ∈ chainKeys s' := by
  intro fuel
  induction fuel with
  | zero =>
    intro s c u s' h
    simp [addDependency] at h
  | succ fuel ih =>
    intro s c u s' h k hk
    simp only [addDependency] at h
    rw [compKey_eq hk] at h
    by_cases hg : (alookup s.chain k).isSome
    · rw [if_pos hg] at h
      simp only [Prod.mk.injEq] at h
      rw [← h.2]
      exact (alookup_isSome_iff _ _).mp hg
    · rw [if_neg hg] at h
      rcases h₁ : stepKeys (addDependency fuel) s c.require with ⟨r₁, s₁⟩
      rw [h₁] at h
      cases r₁ with
      | ok u₁ =>
        dsimp only at h
        have hmem : k ∈ chainKeys { s₁ with chain := objInsert s₁.chain k c } := by
          simp only [chainKeys]
          exact mem_map_fst_objInsert.mpr (Or.inr rfl)
        exact (stepKeys_evolves _ (addDependency_evolves fuel) _ _ _ _ h).2.2.2.1 k hmem
      | err e => simp at h
      | diverge => simp at h

/-! ### Closedness of the freshly added chain keys -/

theorem stepKeys_new (fuel : Nat)
    (ihn : ∀ s c u s', Cur s c → addDependency fuel s c = (JsOut.ok u, s') →
      NewClosed s.manifest s s') :
    ∀ s ks u s', stepKeys (addDependency fuel) s ks = (JsOut.ok u, s') →
      NewClosed s.manifest s s' := by
  intro s ks
  induction ks generalizing s with
  | nil =>
    intro u s' h
    simp only [stepKeys, Prod.mk.injEq] at h
    intro k h₁ h₂
    rw [← h.2] at h₁
    exact absurd h₁ h₂
  | cons k₀ ks ih =>
    intro u s' h
    simp only [stepKeys] at h
    rcases hg : getComponent s k₀ with ⟨res, s₀⟩
    rw [hg] at h
    cases res with
    | error e => simp at h
    | ok c =>
      dsimp only at h
      obtain ⟨hkey, hlook, hmlook, hch, hev₀⟩ := getComponent_ok hg
      rcases hf : addDependency fuel s₀ c with ⟨fr, s₁⟩
      rw [hf] at h
      cases fr with
      | ok u₁ =>
        have hnew₁ : NewClosed s.manifest s₀ s₁ :=
          newClosed_congr hev₀.1 (ihn _ _ _ _ ⟨k₀, hkey, hlook⟩ hf)
        have hnew₂ : NewClosed s.manifest s₁ s' := by
          refine newClosed_congr ?_ (ih s₁ u s' h)
          intro k
          rw [(addDependency_evolves fuel _ _ _ _ hf).1 k, hev₀.1 k]
        have hext : ∀ k, k ∈ chainKeys s₁ → k ∈ chainKeys s' :=
          (stepKeys_evolves _ (addDependency_evolves fuel) _ _ _ _ h).2.2.2.1
        intro k h₁ h₂
        by_cases hk₁ : k ∈ chainKeys s₁
        · have hk₀ : k ∉ chainKeys s₀ := by
            simp only [chainKeys, hch]
            exact h₂
          obtain ⟨c₁, hc₁, hr, hp⟩ := hnew₁ k hk₁ hk₀
          exact ⟨c₁, hc₁, fun r hr' => hext r (hr r hr'), fun p hp' => hext p (hp p hp')⟩
        · exact hnew₂ k h₁ hk₁
      | err e => simp at h
      | diverge => simp at h

theorem addDependency_new :
    ∀ fuel s c u s', Cur s c → addDependency fuel s c = (JsOut.ok u, s') →
      NewClosed s.manifest s s' := by
  intro fuel
  induction fuel with
  | zero =>
    intro s c u s' hc h
    simp [addDependency] at h
  | succ fuel ih =>
    intro s c u s' hc h
    obtain ⟨k, hkey, hlook⟩ := hc
    simp only [addDependency] at h
    rw [compKey_eq hkey] at h
    by_cases hg : (alookup s.chain k).isSome
    · rw [if_pos hg] at h
      simp only [Prod.mk.injEq] at h
      intro k' h₁ h₂
      rw [← h.2] at h₁
      exact absurd h₁ h₂
    · rw [if_neg hg] at h
      rcases h₁ : stepKeys (addDependency fuel) s c.require with ⟨r₁, s₁⟩
      rw [h₁] at h
      cases r₁ with
      | ok u₁ =>
        dsimp only at h
        set s₂ : CState := { s₁ with chain := objInsert s₁.chain k c } with hs₂
        have hev₁ : Evolves s s₁ := stepKeys_evolves _ (addDependency_evolves fuel) _ _ _ _ h₁
        have hev₂ : Evolves s₁ s₂ := evolves_chainInsert s₁ k c
        have hev₃ : Evolves s₂ s' := stepKeys_evolves _ (addDependency_evolves fuel) _ _ _ _ h
        have hreq : ∀ r ∈ c.require, r ∈ chainKeys s₁ :=
          stepKeys_mem fuel (addDependency_mem fuel) _ _ _ _ h₁
        have hprov : ∀ p ∈ c.provide, p ∈ chainKeys s' :=
          stepKeys_mem fuel (addDependency_mem fuel) _ _ _ _ h
        have hnew₁ : NewClosed s.manifest s s₁ := stepKeys_new fuel ih _ _ _ _ h₁
        have hnew₃ : NewClosed s.manifest s₂ s' := by
          refine newClosed_congr ?_ (stepKeys_new fuel ih _ _ _ _ h)
          intro k'
          rw [hev₁.1 k']
        intro k' hk' hk''
        by_cases hm₁ : k' ∈ chainKeys s₁
        · obtain ⟨c₁, hc₁, hr, hp⟩ := hnew₁ k' hm₁ hk''
          exact ⟨c₁, hc₁,
            fun r hr' => hev₃.2.2.2.1 r (hev₂.2.2.2.1 r (hr r hr')),
            fun p hp' => hev₃.2.2.2.1 p (hev₂.2.2.2.1 p (hp p hp'))⟩
        · by_cases hm₂ : k' ∈ chainKeys s₂
          · have : k' = k := by
              simp only [chainKeys, hs₂] at hm₂
              rcases mem_map_fst_objInsert.mp hm₂ with h' | h'
              · exact absurd h' hm₁
              · exact h'
            subst this
            refine ⟨stripKey c, by simp [mlook, hlook], ?_, ?_⟩
            · rw [(stripKey_fields c).1]
              exact fun r hr' => hev₃.2.2.2.1 r (hev₂.2.2.2.1 r (hreq r hr'))
            · rw [(stripKey_fields c).2.1]
              exact hprov
          · exact hnew₃ k' hk' hm₂
      | err e => simp at h
      | diverge => simp at h

/-! ### Minimality: nothing outside the closure is ever added -/

theorem stepKeys_min (fuel : Nat)
    (ihm : ∀ s c u s' (T : Set String), Cur s c → EdgeClosedS s.manifest T →
      (∀ k, c.key = some k → k ∈ T) → addDependency fuel s c = (JsOut.ok u, s') →
      ∀ k ∈ chainKeys s', k ∈ chainKeys s ∨ k ∈ T) :
    ∀ s ks u s' (T : Set String), EdgeClosedS s.manifest T → (∀ k ∈ ks, k ∈ T) →
      stepKeys (addDependency fuel) s ks = (JsOut.ok u, s') →
      ∀ k ∈ chainKeys s', k ∈ chainKeys s ∨ k ∈ T := by
  intro s ks
  induction ks generalizing s with
  | nil =>
    intro u s' T hT hks h
    simp only [stepKeys, Prod.mk.injEq] at h
    intro k hk
    rw [← h.2] at hk
    exact Or.inl hk
  | cons k₀ ks ih =>
    intro u s' T hT hks h
    simp only [stepKeys] at h
    rcases hg : getComponent s k₀ with ⟨res, s₀⟩
    rw [hg] at h
    cases res with
    | error e => simp at h
    | ok c =>
      dsimp only at h
      obtain ⟨hkey, hlook, hmlook, hch, hev₀⟩ := getComponent_ok hg
      rcases hf : addDependency fuel s₀ c with ⟨fr, s₁⟩
      rw [hf] at h
      cases fr with
      | ok u₁ =>
        have hT₀ : EdgeClosedS s₀.manifest T := edgeClosedS_congr (fun k => (hev₀.1 k).symm) hT
        have hmin₁ := ihm _ _ _ _ T ⟨k₀, hkey, hlook⟩ hT₀
          (fun k hk => by rw [hkey] at hk; injection hk with hk; exact hk ▸ hks k₀ (List.mem_cons_self _ _)) hf
        have hT₁ : EdgeClosedS s₁.manifest T :=
          edgeClosedS_congr (fun k => ((addDependency_evolves fuel _ _ _ _ hf).1 k).symm) hT₀
        have hmin₂ := ih s₁ u s' T hT₁ (fun k hk => hks k (List.mem_cons_of_mem _ hk)) h
        intro k hk
        rcases hmin₂ k hk with hk' | hk'
        · rcases hmin₁ k hk' with hk'' | hk''
          · simp only [chainKeys, hch] at hk''
            exact Or.inl hk''
          · exact Or.inr hk''
        · exact Or.inr hk'
      | err e => simp at h
      | diverge => simp at h

theorem addDependency_min :
    ∀ fuel s c u s' (T : Set String), Cur s c → EdgeClosedS s.manifest T →
      (∀ k, c.key = some k → k ∈ T) → addDependency fuel s c = (JsOut.ok u, s') →
      ∀ k ∈ chainKeys s', k ∈ chainKeys s ∨ k ∈ T := by
  intro fuel
  induction fuel with
  | zero =>
    intro s c u s' T hc hT hk h
    simp [addDependency] at h
  | succ fuel ih =>
    intro s c u s' T hc hT hkT h
    obtain ⟨k, hkey, hlook⟩ := hc
    have hkmem : k ∈ T := hkT k hkey
    simp only [addDependency] at h
    rw [compKey_eq hkey] at h
    by_cases hg : (alookup s.chain k).isSome
    · rw [if_pos hg] at h
      simp only [Prod.mk.injEq] at h
      intro k' hk'
      rw [← h.2] at hk'
      exact Or.inl hk'
    · rw [if_neg hg] at h
      rcases h₁ : stepKeys (addDependency fuel) s c.require with ⟨r₁, s₁⟩
      rw [h₁] at h
      cases r₁ with
      | ok u₁ =>
        dsimp only at h
        set s₂ : CState := { s₁ with chain := objInsert s₁.chain k c } with hs₂
        have hedges := hT k hkmem (stripKey c) (by simp [mlook, hlook])
        have hreqT : ∀ r ∈ c.require, r ∈ T := by
          rw [(stripKey_fields c).1] at hedges
          exact hedges.1
        have hprovT : ∀ p ∈ c.provide, p ∈ T := by
          rw [(stripKey_fields c).2.1] at hedges
          exact hedges.2
        have hmin₁ := stepKeys_min fuel ih _ _ _ _ T hT hreqT h₁
        have hev₁ : Evolves s s₁ := stepKeys_evolves _ (addDependency_evolves fuel) _ _ _ _ h₁
        have hT₂ : EdgeClosedS s₂.manifest T :=
          edgeClosedS_congr (fun k' => (hev₁.1 k').symm) hT
        have hmin₃ := stepKeys_min fuel ih _ _ _ _ T hT₂ hprovT h
        intro k' hk'
        rcases hmin₃ k' hk' with hk₂ | hk₂
        · simp only [chainKeys, hs₂] at hk₂
          rcases mem_map_fst_objInsert.mp hk₂ with h' | h'
          · rcases hmin₁ k' h' with h'' | h''
            · exact Or.inl h''
            · exact Or.inr h''
          · exact Or.inr (h' ▸ hkmem)
        · exact Or.inr hk₂
      | err e => simp at h
      | diverge => simp at h

/-! ### Content lemmas for `getComponents`, `objFoldAux`, `sortChain` -/

theorem getComponents_ok :
    ∀ s ks l s', getComponents s ks = (Except.ok l, s') →
      l.map Component.key = ks.map some ∧ (∀ c ∈ l, Cur s' c) := by
  intro s ks
  induction ks generalizing s with
  | nil =>
    intro l s' h
    simp only [getComponents, Prod.mk.injEq] at h
    obtain ⟨h1, h2⟩ := h
    injection h1 with h1
    subst h1
    simp
  | cons k ks ih =>
    intro l s' h
    simp only [getComponents] at h
    rcases hg : getComponent s k with ⟨res, s₀⟩
    rw [hg] at h
    cases res with
    | error e => simp at h
    | ok c =>
      dsimp only at h
      rcases h₂ : getComponents s₀ ks with ⟨res₂, s₁⟩
      rw [h₂] at h
      cases res₂ with
      | error e => simp at h
      | ok cs =>
        simp only [Prod.mk.injEq, Except.ok.injEq] at h
        obtain ⟨h1, h2⟩ := h
        subst h1
        subst h2
        obtain ⟨hkey, hlook, _, _, hev₀⟩ := getComponent_ok hg
        obtain ⟨hmap, hcur⟩ := ih s₀ cs _ h₂
        refine ⟨by simp [hkey, hmap], ?_⟩
        intro c' hc'
        rcases List.mem_cons.mp hc' with rfl | hc'
        · exact cur_evolves ⟨k, hkey, hlook⟩ (getComponents_evolves _ _ _ _ h₂).1
        · exact hcur c' hc'

theorem mem_objFoldAux {l : List Component} :
    ∀ {m k v}, (k, v) ∈ objFoldAux m l → (k, v) ∈ m ∨ (v ∈ l ∧ compKey v = k) := by
  induction l with
  | nil =>
    intro m k v h
    exact Or.inl h
  | cons c cs ih =>
    intro m k v h
    rcases ih h with h' | h'
    · rcases mem_objInsert h' with h'' | h''
      · exact Or.inl h''
      · exact Or.inr ⟨by rw [h''.2]; exact List.mem_cons_self _ _, by rw [h''.2, h''.1]⟩
    · exact Or.inr ⟨List.mem_cons_of_mem _ h'.1, h'.2⟩

theorem nodup_objFoldAux {l : List Component} :
    ∀ {m}, (m.map Prod.fst).Nodup → ((objFoldAux m l).map Prod.fst).Nodup := by
  induction l with
  | nil => intro m h; exact h
  | cons c cs ih => intro m h; exact ih (nodup_map_fst_objInsert h)

theorem keys_mono_objFoldAux {l : List Component} :
    ∀ {m k}, k ∈ m.map Prod.fst → k ∈ (objFoldAux m l).map Prod.fst := by
  induction l with
  | nil => intro m k h; exact h
  | cons c cs ih => intro m k h; exact ih (mem_map_fst_objInsert.mpr (Or.inl h))

theorem keys_cover_objFoldAux {l : List Component} :
    ∀ {m c}, c ∈ l → compKey c ∈ (objFoldAux m l).map Prod.fst := by
  induction l with
  | nil =>
    intro m c h
    simp at h
  | cons c₀ cs ih =>
    intro m c h
    simp only [objFoldAux]
    rcases List.mem_cons.mp h with rfl | h'
    · exact keys_mono_objFoldAux (mem_map_fst_objInsert.mpr (Or.inr rfl))
    · exact ih h'

theorem sortChain_ok {s : CState} {ks : List String} {obj : List (String × Component)} {s' : CState}
    (h : sortChain s ks = (Except.ok obj, s')) :
    (∀ k v, (k, v) ∈ obj → v.key = some k ∧ Cur s' v ∧ k ∈ ks) ∧
    (∀ k ∈ ks, ∃ v, (k, v) ∈ obj ∧ v.key = some k) ∧
    (obj.map Prod.fst).Nodup := by
  unfold sortChain at h
  rcases hg : getComponents s ks with ⟨res, s₀⟩
  rw [hg] at h
  cases res with
  | error e => simp at h
  | ok list =>
    simp only [Prod.mk.injEq, Except.ok.injEq] at h
    obtain ⟨h1, h2⟩ := h
    subst h1
    subst h2
    obtain ⟨hmap, hcur⟩ := getComponents_ok _ _ _ _ hg
    have hkeyed : ∀ c ∈ list, ∃ k ∈ ks, c.key = some k := by
      intro c hc
      have : c.key ∈ list.map Component.key := List.mem_map.mpr ⟨c, hc, rfl⟩
      rw [hmap] at this
      obtain ⟨k, hk, hk'⟩ := List.mem_map.mp this
      exact ⟨k, hk, hk'.symm⟩
    have hcover : ∀ k ∈ ks, ∃ c ∈ list, c.key = some k := by
      intro k hk
      have : some k ∈ ks.map some := List.mem_map.mpr ⟨k, hk, rfl⟩
      rw [← hmap] at this
      obtain ⟨c, hc, hc'⟩ := List.mem_map.mp this
      exact ⟨c, hc, hc'⟩
    have hmemSort : ∀ c : Component, c ∈ List.insertionSort chainLE list ↔ c ∈ list :=
      fun c => List.mem_insertionSort chainLE
    refine ⟨?_, ?_, nodup_objFoldAux (by simp)⟩
    · intro k v hv
      rcases mem_objFoldAux hv with h' | h'
      · simp at h'
      · obtain ⟨hvl, hkk⟩ := h'
        have hvl' : v ∈ list := (hmemSort v).mp hvl
        obtain ⟨k', hk', hkey'⟩ := hkeyed v hvl'
        have : k = k' := by rw [← hkk, compKey_eq hkey']
        subst this
        exact ⟨hkey', hcur v hvl', hk'⟩
    · intro k hk
      obtain ⟨c, hc, hkey⟩ := hcover k hk
      have : compKey c ∈ (objFoldAux [] (List.insertionSort chainLE list)).map Prod.fst :=
        keys_cover_objFoldAux ((hmemSort c).mpr hc)
      rw [compKey_eq hkey] at this
      obtain ⟨⟨k₀, v⟩, hv, hfst⟩ := List.mem_map.mp this
      dsimp at hfst
      subst hfst
      rcases mem_objFoldAux hv with h' | h'
      · simp at h'
      · obtain ⟨hvl, hkk⟩ := h'
        obtain ⟨k', _, hkey'⟩ := hkeyed v ((hmemSort v).mp hvl)
        exact ⟨v, hv, by rw [hkey', ← hkk, compKey_eq hkey']⟩

/-! ### `runAll` versions of the membership / closedness / minimality lemmas -/

theorem runAll_mem (fuel : Nat) :
    ∀ s cs u s', runAll (addDependency fuel) s cs = (JsOut.ok u, s') →
      ∀ c ∈ cs, ∀ k, c.key = some k → k ∈ chainKeys s' := by
  intro s cs
  induction cs generalizing s with
  | nil =>
    intro u s' h c hc
    simp at hc
  | cons c₀ cs ih =>
    intro u s' h c hc k hk
    simp only [runAll] at h
    rcases hf : addDependency fuel s c₀ with ⟨fr, s₁⟩
    rw [hf] at h
    cases fr with
    | ok u₁ =>
      rcases List.mem_cons.mp hc with rfl | hc'
      · exact (runAll_evolves _ (addDependency_evolves fuel) _ _ _ _ h).2.2.2.1 k
          (addDependency_mem fuel _ _ _ _ hf k hk)
      · exact ih s₁ u s' h c hc' k hk
    | err e => simp at h
    | diverge => simp at h

theorem runAll_new (fuel : Nat) :
    ∀ s cs u s', (∀ c ∈ cs, Cur s c) →
      runAll (addDependency fuel) s cs = (JsOut.ok u, s') →
      NewClosed s.manifest s s' := by
  intro s cs
  induction cs generalizing s with
  | nil =>
    intro u s' hcur h
    simp only [runAll, Prod.mk.injEq] at h
    intro k h₁ h₂
    rw [← h.2] at h₁
    exact absurd h₁ h₂
  | cons c₀ cs ih =>
    intro u s' hcur h
    simp only [runAll] at h
    rcases hf : addDependency fuel s c₀ with ⟨fr, s₁⟩
    rw [hf] at h
    cases fr with
    | ok u₁ =>
      have hev₁ : Evolves s s₁ := addDependency_evolves fuel _ _ _ _ hf
      have hnew₁ : NewClosed s.manifest s s₁ :=
        addDependency_new fuel _ _ _ _ (hcur c₀ (List.mem_cons_self _ _)) hf
      have hnew₂ : NewClosed s.manifest s₁ s' := by
        refine newClosed_congr (fun k => (hev₁.1 k)) (ih s₁ u s' ?_ h)
        intro c hc
        exact cur_evolves (hcur c (List.mem_cons_of_mem _ hc)) hev₁
      have hext : ∀ k, k ∈ chainKeys s₁ → k ∈ chainKeys s' :=
        (runAll_evolves _ (addDependency_evolves fuel) _ _ _ _ h).2.2.2.1
      intro k h₁ h₂
      by_cases hk₁ : k ∈ chainKeys s₁
      · obtain ⟨c₁, hc₁, hr, hp⟩ := hnew₁ k hk₁ h₂
        exact ⟨c₁, hc₁, fun r hr' => hext r (hr r hr'), fun p hp' => hext p (hp p hp')⟩
      · exact hnew₂ k h₁ hk₁
    | err e => simp at h
    | diverge => simp at h

theorem runAll_min (fuel : Nat) :
    ∀ s cs u s' (T : Set String), (∀ c ∈ cs, Cur s c) → EdgeClosedS s.manifest T →
      (∀ c ∈ cs, ∀ k, c.key = some k → k ∈ T) →
      runAll (addDependency fuel) s cs = (JsOut.ok u, s') →
      ∀ k ∈ chainKeys s', k ∈ chainKeys s ∨ k ∈ T := by
  intro s cs
  induction cs generalizing s with
  | nil =>
    intro u s' T hcur hT hks h
    simp only [runAll, Prod.mk.injEq] at h
    intro k hk
    rw [← h.2] at hk
    exact Or.inl hk
  | cons c₀ cs ih =>
    intro u s' T hcur hT hks h
    simp only [runAll] at h
    rcases hf : addDependency fuel s c₀ with ⟨fr, s₁⟩
    rw [hf] at h
    cases fr with
    | ok u₁ =>
      have hev₁ : Evolves s s₁ := addDependency_evolves fuel _ _ _ _ hf
      have hmin₁ := addDependency_min fuel _ _ _ _ T (hcur c₀ (List.mem_cons_self _ _)) hT
        (hks c₀ (List.mem_cons_self _ _)) hf
      have hT₁ : EdgeClosedS s₁.manifest T :=
        edgeClosedS_congr (fun k => (hev₁.1 k).symm) hT
      have hmin₂ := ih s₁ u s' T
        (fun c hc => cur_evolves (hcur c (List.mem_cons_of_mem _ hc)) hev₁) hT₁
        (fun c hc => hks c (List.mem_cons_of_mem _ hc)) h
      intro k hk
      rcases hmin₂ k hk with hk' | hk'
      · exact hmin₁ k hk'
      · exact Or.inr hk'
    | err e => simp at h
    | diverge => simp at h

/-! ### Inversion of a successful `buildChain` -/

theorem applyFilter_none (chain : List (String × Component)) :
    applyFilter CategoryFilter.none chain = chain := by
  simp [applyFilter, filterTruthy]

theorem buildChain_ok_inv {fuel : Nat} {s : CState} {sel : Selection} {cat : CategoryFilter}
    {u : Unit} {s' : CState}
    (h : buildChainF fuel s sel cat = (JsOut.ok u, s')) :
    ∃ obj s₁ s₂,
      sortChain { s with chain := [] } (normalizeSelection s sel) = (Except.ok obj, s₁) ∧
      runAll (addDependency fuel) s₁ (obj.map Prod.snd) = (JsOut.ok (), s₂) ∧
      s' = { s₂ with chain := applyFilter cat s₂.chain } := by
  simp only [buildChainF] at h
  rcases hsort : sortChain { s with chain := [] } (normalizeSelection s sel) with ⟨res, s₁⟩
  rw [hsort] at h
  cases res with
  | error e => simp at h
  | ok obj =>
    dsimp only at h
    rcases hrun : runAll (addDependency fuel) s₁ (obj.map Prod.snd) with ⟨fr, s₂⟩
    rw [hrun] at h
    cases fr with
    | ok u₂ =>
      simp only [Prod.mk.injEq] at h
      exact ⟨obj, s₁, s₂, rfl, hrun, h.2.symm⟩
    | err e => simp at h
    | diverge => simp at h

/-! ### Demo states used by witnesses (the literal manifest of spec §8) -/

/-- A bare component record as a JSON manifest entry would provide it
(no `name`, no stamped `key`). -/
def mkC (category : Option String) (req prov : List String) (priority : Option Int)
    (src : List (String × List String)) : Component :=
  ⟨none, category, req, prov, priority, src, none⟩

/-- The literal example manifest of the specification: `a`; `b` requires
`a`; `e` provides `f`; `f`; `h` requires `b` and `e`. -/
def demoManifest : List (String × Component) :=
  [("a", mkC none [] [] none [("css", ["a.css"])]),
   ("b", mkC none ["a"] [] none [("css", ["b.css"])]),
   ("e", mkC none [] ["f"] none [("css", ["e.css"])]),
   ("f", mkC none [] [] none [("css", ["f.css"])]),
   ("h", mkC none ["b", "e"] [] none [("css", ["h.css"]), ("js", ["g.js"])])]

def demoS : CState := ⟨demoManifest, [("css", "/css/")], []⟩

def demoPost : CState := (buildChainF 10 demoS (Selection.list ["h"]) CategoryFilter.none).2

/-! ### C1: the resolved chain is the require/provide closure of the selection -/

/-- C1.  For every manifest and selection (explicit list, single comma-joined
string, or omitted meaning all manifest keys) such that `buildChain`
succeeds with no category filter, the key set of the produced chain
contains the normalised selection, is closed under the `require` and
`provide` edges of the manifest, is contained in every edge-closed superset
of the selection (hence equals the smallest such closure), and lists each
key exactly once. -/
theorem buildChain_closure (fuel : Nat) (s : CState) (sel : Selection) (u : Unit) (s' : CState)
    (h : buildChainF fuel s sel CategoryFilter.none = (JsOut.ok u, s')) :
    (∀ k ∈ normalizeSelection s sel, k ∈ chainKeys s') ∧
    (chainKeys s').Nodup ∧
    EdgeClosedS s.manifest {k | k ∈ chainKeys s'} ∧
    (∀ T : Set String, (∀ k ∈ normalizeSelection s sel, k ∈ T) → EdgeClosedS s.manifest T →
      ∀ k ∈ chainKeys s', k ∈ T) := by
  obtain ⟨obj, s₁, s₂, hsort, hrun, hs'⟩ := buildChain_ok_inv h
  have hchain : chainKeys s' = chainKeys s₂ := by
    rw [hs']
    simp [chainKeys, applyFilter_none]
  obtain ⟨hentries, hcover, hnodup⟩ := sortChain_ok hsort
  obtain ⟨hevS, hchS⟩ := sortChain_evolves hsort
  have hch₁ : s₁.chain = [] := by rw [hchS]
  have hck₁ : chainKeys s₁ = [] := by simp [chainKeys, hch₁]
  have hmlook₁ : ∀ k, mlook s₁.manifest k = mlook s.manifest k := fun k => hevS.1 k
  have hcurvals : ∀ c ∈ obj.map Prod.snd, Cur s₁ c := by
    intro c hc
    obtain ⟨⟨k₀, v⟩, hv, hsnd⟩ := List.mem_map.mp hc
    dsimp at hsnd
    subst hsnd
    exact (hentries k₀ v hv).2.1
  refine ⟨?_, ?_, ?_, ?_⟩
  · intro k hk
    obtain ⟨v, hv, hkey⟩ := hcover k hk
    rw [hchain]
    exact runAll_mem fuel _ _ _ _ hrun v (List.mem_map.mpr ⟨(k, v), hv, rfl⟩) k hkey
  · rw [hchain]
    refine (runAll_evolves _ (addDependency_evolves fuel) _ _ _ _ hrun).2.2.2.2.1 ?_
    rw [hck₁]
    exact List.nodup_nil
  · intro k hk c hc
    have hnew := runAll_new fuel _ _ _ _ hcurvals hrun
    have hk₂ : k ∈ chainKeys s₂ := by rw [← hchain]; exact hk
    have hk₁ : k ∉ chainKeys s₁ := by rw [hck₁]; simp
    obtain ⟨c₀, hc₀, hr, hp⟩ := hnew k hk₂ hk₁
    rw [hmlook₁ k, hc] at hc₀
    injection hc₀ with hc₀
    subst hc₀
    constructor
    · intro r hr'
      show r ∈ chainKeys s'
      rw [hchain]
      exact hr r hr'
    · intro p hp'
      show p ∈ chainKeys s'
      rw [hchain]
      exact hp p hp'
  · intro T hTsel hTclosed k hk
    rw [hchain] at hk
    have hT₁ : EdgeClosedS s₁.manifest T := edgeClosedS_congr (fun k' => (hmlook₁ k').symm) hTclosed
    have roots : ∀ c ∈ obj.map Prod.snd, ∀ k₀, c.key = some k₀ → k₀ ∈ T := by
      intro c hc k₀ hk₀
      obtain ⟨⟨ka, v⟩, hv, hsnd⟩ := List.mem_map.mp hc
      dsimp at hsnd
      subst hsnd
      obtain ⟨hkey, _, hka⟩ := hentries ka v hv
      rw [hkey] at hk₀
      injection hk₀ with hk₀
      subst hk₀
      exact hTsel ka hka
    rcases runAll_min fuel _ _ _ _ T hcurvals hT₁ roots hrun k hk with h' | h'
    · rw [hck₁] at h'
      simp at h'
    · exact h'

/-- Witness for C1: the spec's literal example, `buildChain(['h'])`, with the
selection landing in the chain and the chain keys pairwise distinct. -/
theorem buildChain_closure_witness :
    (∀ k ∈ normalizeSelection demoS (Selection.list ["h"]), k ∈ chainKeys demoPost) ∧
    (chainKeys demoPost).Nodup := by
  have h := buildChain_closure 10 demoS (Selection.list ["h"]) () demoPost (by decide)
  exact ⟨h.1, h.2.1⟩

/-! ### C2: a require cycle recurses unboundedly -/

theorem addDependency_succ (fuel : Nat) (s : CState) (c : Component) :
    addDependency (Nat.succ fuel) s c =
      if (alookup s.chain (compKey c)).isSome then (JsOut.ok (), s)
      else
        match stepKeys (addDependency fuel) s c.require with
        | (JsOut.ok _, s₁) =>
          stepKeys (addDependency fuel)
            { s₁ with chain := objInsert s₁.chain (compKey c) c } c.provide
        | r => r := rfl

theorem stepKeys_cons (f : CState → Component → JsOut Unit × CState) (s : CState)
    (k : String) (ks : List String) :
    stepKeys f s (k :: ks) =
      match getComponent s k with
      | (Except.error e, s') => (JsOut.err e, s')
      | (Except.ok c, s₁) =>
        match f s₁ c with
        | (JsOut.ok _, s₂) => stepKeys f s₂ ks
        | r => r := rfl

theorem runAll_cons (f : CState → Component → JsOut Unit × CState) (s : CState)
    (c : Component) (cs : List Component) :
    runAll f s (c :: cs) =
      match f s c with
      | (JsOut.ok _, s₁) => runAll f s₁ cs
      | r => r := rfl

/-- The two-component cycle of spec §8: `a` requires `b`, `b` requires `a`. -/
def cycS : CState :=
  ⟨[("a", mkC none ["b"] [] none []), ("b", mkC none ["a"] [] none [])], [], []⟩

/-- The record for `a` after `getComponent` stamped it. -/
def cycA : Component := ⟨none, none, ["b"], [], none, [], some "a"⟩

/-- The record for `b` after `getComponent` stamped it. -/
def cycB : Component := ⟨none, none, ["a"], [], none, [], some "b"⟩

/-- The instance state once `a` has been stamped by `sortChain`. -/
def cycS₁ : CState := ⟨[("a", cycA), ("b", mkC none ["a"] [] none [])], [], []⟩

/-- The instance state once both `a` and `b` have been stamped. -/
def cycS₂ : CState := ⟨[("a", cycA), ("b", cycB)], [], []⟩

theorem cyc_aux : ∀ f, (addDependency f cycS₂ cycA).1 = JsOut.diverge ∧
    (addDependency f cycS₂ cycB).1 = JsOut.diverge := by
  intro f
  induction f with
  | zero => exact ⟨rfl, rfl⟩
  | succ f ih =>
    constructor
    · rcases hB : addDependency f cycS₂ cycB with ⟨rB, sB⟩
      have hrB : rB = JsOut.diverge := by
        have h2 := ih.2
        rw [hB] at h2
        exact h2
      subst hrB
      rw [addDependency_succ]
      rw [if_neg (by decide : ¬((alookup cycS₂.chain (compKey cycA)).isSome = true))]
      have hreq : cycA.require = ["b"] := rfl
      rw [hreq, stepKeys_cons]
      rw [(by decide : getComponent cycS₂ "b" = (Except.ok cycB, cycS₂))]
      dsimp only
      rw [hB]
    · rcases hA : addDependency f cycS₂ cycA with ⟨rA, sA⟩
      have hrA : rA = JsOut.diverge := by
        have h1 := ih.1
        rw [hA] at h1
        exact h1
      subst hrA
      rw [addDependency_succ]
      rw [if_neg (by decide : ¬((alookup cycS₂.chain (compKey cycB)).isSome = true))]
      have hreq : cycB.require = ["a"] := rfl
      rw [hreq, stepKeys_cons]
      rw [(by decide : getComponent cycS₂ "a" = (Except.ok cycA, cycS₂))]
      dsimp only
      rw [hA]

/-- C2.  The claim requires resolution of the `a`/`b` require cycle to
terminate with a `CyclicDependency` error.  The code has no in-progress
marker and no such error at all: for EVERY fuel bound, `buildChain(['a'])`
on the cyclic manifest exhausts the fuel — the JS recursion never returns
and never throws, i.e. it recurses unboundedly (stack overflow), which is
exactly what the claim forbids. -/
theorem cyclic_requires_diverges :
    ∀ fuel, (buildChainF fuel cycS (Selection.list ["a"]) CategoryFilter.none).1 = JsOut.diverge := by
  intro fuel
  cases fuel with
  | zero => decide
  | succ f =>
    rcases hB : addDependency f cycS₂ cycB with ⟨rB, sB⟩
    have hrB : rB = JsOut.diverge := by
      have h2 := (cyc_aux f).2
      rw [hB] at h2
      exact h2
    subst hrB
    have hA : addDependency (Nat.succ f) cycS₁ cycA = (JsOut.diverge, sB) := by
      rw [addDependency_succ]
      rw [if_neg (by decide : ¬((alookup cycS₁.chain (compKey cycA)).isSome = true))]
      have hreq : cycA.require = ["b"] := rfl
      rw [hreq, stepKeys_cons]
      rw [(by decide : getComponent cycS₁ "b" = (Except.ok cycB, cycS₂))]
      dsimp only
      rw [hB]
    simp only [buildChainF, normalizeSelection]
    rw [(by decide : sortChain { cycS with chain := [] } ["a"] = (Except.ok [("a", cycA)], cycS₁))]
    dsimp only [List.map]
    rw [runAll_cons, hA]

/-! ### C10: a string selection is split on commas -/

/-- C10.  For every non-empty string `v`, `buildChain(v, f)` behaves exactly
as `buildChain` applied to the list obtained by splitting `v` on `','`, for
every category filter and fuel. -/
theorem string_selection_splits (v : String) (h : v ≠ "") (fuel : Nat) (s : CState)
    (f : CategoryFilter) :
    buildChainF fuel s (Selection.str v) f =
      buildChainF fuel s (Selection.list (v.splitOn ",")) f := by
  unfold buildChainF
  simp only [normalizeSelection, if_neg h]

/-- Witness for C10 at the selection string `"a,b"`. -/
theorem string_selection_splits_witness :
    ("a,b" ≠ "") ∧
    buildChainF 3 demoS (Selection.str "a,b") CategoryFilter.none =
      buildChainF 3 demoS (Selection.list ("a,b".splitOn ",")) CategoryFilter.none := by
  exact ⟨by decide, string_selection_splits "a,b" (by decide) 3 demoS CategoryFilter.none⟩

/-! ### C5: the `ChainNotBuilt` guard is dead code -/

/-- C5.  The claim says `getPaths` on a fresh instance fails with
`ChainNotBuilt`.  In the code the guard is `if (!chain)`, but `this.chain`
is initialised to the empty object `{}`, which is truthy in JS, so the guard
can never fire: no call of `getPaths` ever produces `ChainNotBuilt`, and on
a fresh instance with a registered type it returns the empty list instead. -/
theorem getPaths_never_chainNotBuilt :
    (∀ s t, (getPaths s t).1 ≠ JsOut.err JsError.chainNotBuilt) ∧
    (getPaths (addType freshState "css" "/css/") "css").1 = JsOut.ok [] := by
  constructor
  · intro s t
    unfold getPaths
    simp only [chainFalsy, Bool.false_eq_true, if_false]
    cases alookup s.types t <;> simp
  · decide

/-! ### C4: `getPaths` keeps duplicate paths (no de-duplication) -/

theorem foldl_append_eq_join {α β : Type} (g : α → List β) (l : List α) :
    ∀ acc, l.foldl (fun a e => a ++ g e) acc = acc ++ (l.map g).flatten := by
  induction l with
  | nil => intro acc; simp
  | cons x xs ih => intro acc; simp [ih, List.append_assoc]

/-- C4 amended.  `getPaths(t)` returns, in chain order, the concatenation of
every chain entry's declared path list for `t` — duplicates retained, a path
appearing once per declaration — each prefixed with the root registered for
`t`.  (The current source concatenates with `paths.concat(...)`; it has no
de-duplication pass.) -/
theorem getPaths_concat (s : CState) (t root : String) (h : alookup s.types t = some root) :
    (getPaths s t).1 =
      JsOut.ok (((s.chain.map (fun e => sourcePaths e.2 t)).flatten).map (fun p => root ++ p)) := by
  unfold getPaths
  simp only [chainFalsy, Bool.false_eq_true, if_false]
  rw [h]
  have hf := foldl_append_eq_join (fun e : String × Component => sourcePaths e.2 t) s.chain []
  simp only [List.nil_append] at hf
  rw [hf]

/-- Two components both declaring `a.css` for type `css`. -/
def dupS : CState :=
  ⟨[("c1", mkC none [] [] none [("css", ["a.css"])]),
    ("c2", mkC none [] [] none [("css", ["a.css"])])],
   [("css", "/css/")], []⟩

def dupPost : CState := (buildChainF 3 dupS Selection.omitted CategoryFilter.none).2

/-- Counterexample to C4 as stated: after resolving both components, the
path `/css/a.css` appears TWICE in `getPaths('css')`, not once — the code
does not de-duplicate. -/
theorem getPaths_duplicates_kept :
    (buildChainF 3 dupS Selection.omitted CategoryFilter.none).1 = JsOut.ok () ∧
    (getPaths dupPost "css").1 = JsOut.ok ["/css/a.css", "/css/a.css"] ∧
    ¬(["/css/a.css", "/css/a.css"].count "/css/a.css" = 1) := by decide

/-- Witness for the amended C4 on the duplicate-path chain. -/
theorem getPaths_concat_witness :
    alookup dupPost.types "css" = some "/css/" ∧
    (getPaths dupPost "css").1 =
      JsOut.ok (((dupPost.chain.map (fun e => sourcePaths e.2 "css")).flatten).map
        (fun p => "/css/" ++ p)) :=
  ⟨by decide, getPaths_concat dupPost "css" "/css/" (by decide)⟩

/-! ### C6: what a failed resolution is, and what it leaves behind -/

theorem stepKeys_err (fuel : Nat)
    (ih : ∀ s c e s', addDependency fuel s c = (JsOut.err e, s') →
      ∃ k, e = JsError.componentNotFound k ∧ alookup s'.manifest k = none) :
    ∀ s ks e s', stepKeys (addDependency fuel) s ks = (JsOut.err e, s') →
      ∃ k, e = JsError.componentNotFound k ∧ alookup s'.manifest k = none := by
  intro s ks
  induction ks generalizing s with
  | nil =>
    intro e s' h
    simp [stepKeys] at h
  | cons k₀ ks ihl =>
    intro e s' h
    simp only [stepKeys] at h
    rcases hg : getComponent s k₀ with ⟨res, s₀⟩
    rw [hg] at h
    cases res with
    | error e₀ =>
      cases h
      obtain ⟨he, hs, hl⟩ := getComponent_error hg
      subst hs
      exact ⟨k₀, he, hl⟩
    | ok c =>
      dsimp only at h
      rcases hf : addDependency fuel s₀ c with ⟨fr, s₁⟩
      rw [hf] at h
      cases fr with
      | ok u => exact ihl s₁ e s' h
      | err e₁ =>
        cases h
        exact ih _ _ _ _ hf
      | diverge => simp at h

theorem addDependency_err :
    ∀ fuel s c e s', addDependency fuel s c = (JsOut.err e, s') →
      ∃ k, e = JsError.componentNotFound k ∧ alookup s'.manifest k = none := by
  intro fuel
  induction fuel with
  | zero =>
    intro s c e s' h
    simp [addDependency] at h
  | succ fuel ih =>
    intro s c e s' h
    simp only [addDependency] at h
    by_cases hg : (alookup s.chain (compKey c)).isSome
    · rw [if_pos hg] at h
      simp at h
    · rw [if_neg hg] at h
      rcases h₁ : stepKeys (addDependency fuel) s c.require with ⟨r₁, s₁⟩
      rw [h₁] at h
      cases r₁ with
      | ok u =>
        dsimp only at h
        exact stepKeys_err fuel ih _ _ _ _ h
      | err e₁ =>
        cases h
        exact stepKeys_err fuel ih _ _ _ _ h₁
      | diverge => simp at h

theorem runAll_err (fuel : Nat) :
    ∀ s cs e s', runAll (addDependency fuel) s cs = (JsOut.err e, s') →
      ∃ k, e = JsError.componentNotFound k ∧ alookup s'.manifest k = none := by
  intro s cs
  induction cs generalizing s with
  | nil =>
    intro e s' h
    simp [runAll] at h
  | cons c cs ih =>
    intro e s' h
    simp only [runAll] at h
    rcases hf : addDependency fuel s c with ⟨fr, s₁⟩
    rw [hf] at h
    cases fr with
    | ok u => exact ih s₁ e s' h
    | err e₁ =>
      cases h
      exact addDependency_err fuel _ _ _ _ hf
    | diverge => simp at h

theorem getComponents_err :
    ∀ s ks e s', getComponents s ks = (Except.error e, s') →
      ∃ k, e = JsError.componentNotFound k ∧ alookup s'.manifest k = none := by
  intro s ks
  induction ks generalizing s with
  | nil =>
    intro e s' h
    simp [getComponents] at h
  | cons k₀ ks ih =>
    intro e s' h
    simp only [getComponents] at h
    rcases hg : getComponent s k₀ with ⟨res, s₀⟩
    rw [hg] at h
    cases res with
    | error e₀ =>
      cases h
      obtain ⟨he, hs, hl⟩ := getComponent_error hg
      subst hs
      exact ⟨k₀, he, hl⟩
    | ok c =>
      dsimp only at h
      rcases h₂ : getComponents s₀ ks with ⟨res₂, s₁⟩
      rw [h₂] at h
      cases res₂ with
      | error e₁ =>
        cases h
        exact ih s₀ e s' h₂
      | ok cs => simp at h

/-- The manifest of the C6 counterexample: `a` is fine, `h` requires `a`
and the missing key `z`. -/
def c6S : CState :=
  ⟨[("a", mkC none [] [] none [("css", ["a.css"])]),
    ("h", mkC none ["a", "z"] [] none [])],
   [("css", "/css/")], []⟩

/-- The instance state after the failed `buildChain(['h'])` call. -/
def c6Post : CState := (buildChainF 3 c6S (Selection.list ["h"]) CategoryFilter.none).2

/-- C6 amended.  Whenever `buildChain` terminates with an error, that error
is `ComponentNotFound` for a key absent from the Manifest Store; but the
partially built chain is NOT discarded — it stays on the instance (the chain
is only reset at the START of the next `buildChain` call), as the concrete
failing resolution shows. -/
theorem buildChain_error_componentNotFound :
    (∀ fuel s sel cat e s', buildChainF fuel s sel cat = (JsOut.err e, s') →
      ∃ k, e = JsError.componentNotFound k ∧ alookup s'.manifest k = none) ∧
    c6Post.chain ≠ [] := by
  constructor
  · intro fuel s sel cat e s' h
    simp only [buildChainF] at h
    rcases hsort : sortChain { s with chain := [] } (normalizeSelection s sel) with ⟨res, s₁⟩
    rw [hsort] at h
    cases res with
    | error e₀ =>
      cases h
      unfold sortChain at hsort
      rcases hg : getComponents { s with chain := [] } (normalizeSelection s sel) with ⟨res₀, s₀⟩
      rw [hg] at hsort
      cases res₀ with
      | error e₁ =>
        cases hsort
        exact getComponents_err _ _ _ _ hg
      | ok list => simp at hsort
    | ok obj =>
      dsimp only at h
      rcases hrun : runAll (addDependency fuel) s₁ (obj.map Prod.snd) with ⟨fr, s₂⟩
      rw [hrun] at h
      cases fr with
      | ok u => simp at h
      | err e₁ =>
        cases h
        exact runAll_err fuel _ _ _ _ hrun
      | diverge => simp at h
  · decide

/-- Witness for C6: the failing call `buildChain(['h'])` with `z` missing
produces exactly `ComponentNotFound` for a key the store lacks. -/
theorem buildChain_error_componentNotFound_witness :
    buildChainF 3 c6S (Selection.list ["h"]) CategoryFilter.none =
      (JsOut.err (JsError.componentNotFound "z"), c6Post) ∧
    (∃ k, JsError.componentNotFound "z" = JsError.componentNotFound k ∧
      alookup c6Post.manifest k = none) := by
  constructor
  · decide
  · exact buildChain_error_componentNotFound.1 3 c6S (Selection.list ["h"])
      CategoryFilter.none _ _ (by decide)

/-- Counterexample to C6 as stated: after the failed call the instance chain
still holds the already-expanded component `a`, and a later `getPaths`
observes it — the partial chain is retained, not discarded. -/
theorem buildChain_failure_retains_chain :
    (buildChainF 3 c6S (Selection.list ["h"]) CategoryFilter.none).1 =
      JsOut.err (JsError.componentNotFound "z") ∧
    c6Post.chain.map Prod.fst = ["a"] ∧
    (getPaths c6Post "css").1 = JsOut.ok ["/css/a.css"] := by decide

/-! ### C9: resolution stamps `key` onto the stored manifest records -/

/-- Every chain entry is the stamped record the manifest currently stores
under the same key (in JS they are literally the same mutated object). -/
def ChainCur (σ : CState) : Prop :=
  ∀ k c, (k, c) ∈ σ.chain → c.key = some k ∧ alookup σ.manifest k = some c

theorem chainCur_evolves {s s' : CState} (h : ChainCur s) (he : Evolves s s')
    (hch : s'.chain = s.chain) : ChainCur s' := by
  intro k c hm
  rw [hch] at hm
  obtain ⟨hk, hl⟩ := h k c hm
  exact ⟨hk, he.2.2.1 k c hl hk⟩

theorem chainCur_insert {s : CState} {c : Component} {k : String} (h : ChainCur s)
    (hkey : c.key = some k) (hl : alookup s.manifest k = some c) :
    ChainCur { s with chain := objInsert s.chain k c } := by
  intro k' c' hm
  rcases mem_objInsert hm with hm' | hm'
  · exact h k' c' hm'
  · obtain ⟨h1, h2⟩ := hm'
    subst h1
    subst h2
    exact ⟨hkey, hl⟩

theorem stepKeys_chainCur (fuel : Nat)
    (ih : ∀ s c r s', ChainCur s → Cur s c → addDependency fuel s c = (r, s') → ChainCur s') :
    ∀ s ks r s', ChainCur s → stepKeys (addDependency fuel) s ks = (r, s') → ChainCur s' := by
  intro s ks
  induction ks generalizing s with
  | nil =>
    intro r s' hC h
    simp only [stepKeys, Prod.mk.injEq] at h
    exact h.2 ▸ hC
  | cons k₀ ks ihl =>
    intro r s' hC h
    simp only [stepKeys] at h
    rcases hg : getComponent s k₀ with ⟨res, s₀⟩
    rw [hg] at h
    cases res with
    | error e =>
      cases h
      obtain ⟨_, hs, _⟩ := getComponent_error hg
      subst hs
      exact hC
    | ok c =>
      dsimp only at h
      obtain ⟨hkey, hlook, _, hch, hev₀⟩ := getComponent_ok hg
      have hC₀ : ChainCur s₀ := chainCur_evolves hC hev₀ hch
      rcases hf : addDependency fuel s₀ c with ⟨fr, s₁⟩
      rw [hf] at h
      have hC₁ : ChainCur s₁ := ih _ _ _ _ hC₀ ⟨k₀, hkey, hlook⟩ hf
      cases fr with
      | ok u => exact ihl s₁ r s' hC₁ h
      | err e =>
        cases h
        exact hC₁
      | diverge =>
        cases h
        exact hC₁

theorem addDependency_chainCur :
    ∀ fuel s c r s', ChainCur s → Cur s c → addDependency fuel s c = (r, s') →
      ChainCur s' := by
  intro fuel
  induction fuel with
  | zero =>
    intro s c r s' hC hc h
    simp only [addDependency, Prod.mk.injEq] at h
    exact h.2 ▸ hC
  | succ fuel ih =>
    intro s c r s' hC hc h
    obtain ⟨k, hkey, hlook⟩ := hc
    simp only [addDependency] at h
    rw [compKey_eq hkey] at h
    by_cases hg : (alookup s.chain k).isSome
    · rw [if_pos hg] at h
      simp only [Prod.mk.injEq] at h
      exact h.2 ▸ hC
    · rw [if_neg hg] at h
      rcases h₁ : stepKeys (addDependency fuel) s c.require with ⟨r₁, s₁⟩
      rw [h₁] at h
      have hC₁ : ChainCur s₁ := stepKeys_chainCur fuel ih _ _ _ _ hC h₁
      cases r₁ with
      | ok u₁ =>
        dsimp only at h
        have hev₁ : Evolves s s₁ := stepKeys_evolves _ (addDependency_evolves fuel) _ _ _ _ h₁
        have hl₁ : alookup s₁.manifest k = some c := hev₁.2.2.1 k c hlook hkey
        have hC₂ : ChainCur { s₁ with chain := objInsert s₁.chain k c } :=
          chainCur_insert hC₁ hkey hl₁
        exact stepKeys_chainCur fuel ih _ _ _ _ hC₂ h
      | err e =>
        cases h
        exact hC₁
      | diverge =>
        cases h
        exact hC₁

theorem runAll_chainCur (fuel : Nat) :
    ∀ s cs r s', ChainCur s → (∀ c ∈ cs, Cur s c) →
      runAll (addDependency fuel) s cs = (r, s') → ChainCur s' := by
  intro s cs
  induction cs generalizing s with
  | nil =>
    intro r s' hC hcur h
    simp only [runAll, Prod.mk.injEq] at h
    exact h.2 ▸ hC
  | cons c cs ih =>
    intro r s' hC hcur h
    simp only [runAll] at h
    rcases hf : addDependency fuel s c with ⟨fr, s₁⟩
    rw [hf] at h
    have hC₁ : ChainCur s₁ :=
      addDependency_chainCur fuel _ _ _ _ hC (hcur c (List.mem_cons_self _ _)) hf
    cases fr with
    | ok u =>
      refine ih s₁ r s' hC₁ ?_ h
      intro c' hc'
      exact cur_evolves (hcur c' (List.mem_cons_of_mem _ hc')) (addDependency_evolves fuel _ _ _ _ hf)
    | err e =>
      cases h
      exact hC₁
    | diverge =>
      cases h
      exact hC₁

theorem applyFilter_mem {f : CategoryFilter} {ch : List (String × Component)}
    {e : String × Component} (h : e ∈ applyFilter f ch) : e ∈ ch := by
  unfold applyFilter at h
  by_cases ht : filterTruthy f
  · rw [if_pos ht] at h
    exact (List.mem_filter.mp h).1
  · rw [if_neg ht] at h
    exact h

/-- Shared helper: the frame and stamping facts of a successful
`buildChain` (manifest unchanged up to `key` stamping; chain entries are
the stamped stored records). -/
theorem buildChain_frame_cur (fuel : Nat) (s : CState) (sel : Selection)
    (cat : CategoryFilter) (u : Unit) (s' : CState)
    (h : buildChainF fuel s sel cat = (JsOut.ok u, s')) :
    (∀ k, mlook s'.manifest k = mlook s.manifest k) ∧
    s'.manifest.map Prod.fst = s.manifest.map Prod.fst ∧
    (∀ k c, (k, c) ∈ s'.chain → c.key = some k ∧ alookup s'.manifest k = some c) := by
  obtain ⟨obj, s₁, s₂, hsort, hrun, hs'⟩ := buildChain_ok_inv h
  obtain ⟨hevS, hchS⟩ := sortChain_evolves hsort
  have hevR : Evolves s₁ s₂ := runAll_evolves _ (addDependency_evolves fuel) _ _ _ _ hrun
  have hman : s'.manifest = s₂.manifest := by rw [hs']
  have hbase : mlook ({ s with chain := ([] : List (String × Component)) }).manifest =
      mlook s.manifest := rfl
  refine ⟨?_, ?_, ?_⟩
  · intro k
    rw [hman, hevR.1 k, hevS.1 k]
  · rw [hman, hevR.2.1, hevS.2.1]
  · have hC₁ : ChainCur s₁ := by
      intro k c hm
      rw [hchS] at hm
      simp at hm
    obtain ⟨hentries, _, _⟩ := sortChain_ok hsort
    have hcurvals : ∀ c ∈ obj.map Prod.snd, Cur s₁ c := by
      intro c hc
      obtain ⟨⟨k₀, v⟩, hv, hsnd⟩ := List.mem_map.mp hc
      dsimp at hsnd
      subst hsnd
      exact (hentries k₀ v hv).2.1
    have hC₂ : ChainCur s₂ := runAll_chainCur fuel _ _ _ _ hC₁ hcurvals hrun
    intro k c hm
    rw [hs'] at hm
    have hm' : (k, c) ∈ applyFilter cat s₂.chain := hm
    obtain ⟨hk, hl⟩ := hC₂ k c (applyFilter_mem hm')
    exact ⟨hk, by rw [hman]; exact hl⟩

/-- C9.  A successful `buildChain` is not read-only on the Manifest Store:
every chained component's record in the manifest has been mutated in place
so that its `key` field equals its own key (the chain entry IS that stored
record), while every manifest record is otherwise unchanged (same lookups
up to the `key` field, same key order). -/
theorem buildChain_stamps_manifest (fuel : Nat) (s : CState) (sel : Selection)
    (cat : CategoryFilter) (u : Unit) (s' : CState)
    (h : buildChainF fuel s sel cat = (JsOut.ok u, s')) :
    (∀ k, mlook s'.manifest k = mlook s.manifest k) ∧
    s'.manifest.map Prod.fst = s.manifest.map Prod.fst ∧
    (∀ k c, (k, c) ∈ s'.chain → c.key = some k ∧ alookup s'.manifest k = some c) :=
  buildChain_frame_cur fuel s sel cat u s' h

/-- Witness for C9 on the spec's example: after `buildChain(['h'])` every
chained record carries its own key and is the record the manifest stores. -/
theorem buildChain_stamps_manifest_witness :
    buildChainF 10 demoS (Selection.list ["h"]) CategoryFilter.none = (JsOut.ok (), demoPost) ∧
    (∀ k c, (k, c) ∈ demoPost.chain → c.key = some k ∧ alookup demoPost.manifest k = some c) :=
  ⟨by decide,
   (buildChain_stamps_manifest 10 demoS (Selection.list ["h"]) CategoryFilter.none ()
      demoPost (by decide)).2.2⟩

/-! ### C7: the category filter -/

/-- The retention condition in the words of the claim: the component has a
non-empty category, and it equals the string filter / is a member of the
array filter (no condition when no filter is given). -/
def RetainSpec : CategoryFilter → Component → Prop
  | CategoryFilter.none, _ => True
  | CategoryFilter.str v, c => ∃ cat, c.category = some cat ∧ cat ≠ "" ∧ cat = v
  | CategoryFilter.arr l, c => ∃ cat, c.category = some cat ∧ cat ≠ "" ∧ cat ∈ l

theorem keepEntry_iff_str {v : String} {c : Component} :
    keepEntry (CategoryFilter.str v) c = true ↔ RetainSpec (CategoryFilter.str v) c := by
  cases hcat : c.category with
  | none => simp [keepEntry, hcat, RetainSpec]
  | some cat =>
    by_cases hc : cat = ""
    · subst hc
      simp [keepEntry, hcat, RetainSpec]
    · simp [keepEntry, hcat, hc, RetainSpec]

theorem keepEntry_iff_arr {l : List String} {c : Component} :
    keepEntry (CategoryFilter.arr l) c = true ↔ RetainSpec (CategoryFilter.arr l) c := by
  cases hcat : c.category with
  | none => simp [keepEntry, hcat, RetainSpec]
  | some cat =>
    by_cases hc : cat = ""
    · subst hc
      simp [keepEntry, hcat, RetainSpec]
    · simp [keepEntry, hcat, hc, RetainSpec, List.contains, List.elem_iff]

theorem mem_applyFilter_iff {f : CategoryFilter} (hf : f ≠ CategoryFilter.str "")
    (ch : List (String × Component)) (k : String) (c : Component) :
    (k, c) ∈ applyFilter f ch ↔ ((k, c) ∈ ch ∧ RetainSpec f c) := by
  cases f with
  | none => simp [applyFilter, filterTruthy, RetainSpec]
  | str v =>
    have hv : v ≠ "" := fun hv' => hf (by rw [hv'])
    simp only [applyFilter, filterTruthy]
    rw [if_pos (by simp [hv])]
    rw [List.mem_filter]
    exact and_congr_right (fun _ => keepEntry_iff_str)
  | arr l =>
    simp only [applyFilter, filterTruthy]
    rw [if_pos trivial]
    rw [List.mem_filter]
    exact and_congr_right (fun _ => keepEntry_iff_arr)

/-- C7 amended.  For every filter other than the empty string, a component
is retained in the filtered chain iff it was in the unfiltered resolution
and has a non-empty category that equals the string filter (or belongs to
the array filter); with no filter everything is retained.  The empty-string
filter is falsy in JS (`if (category)`), so it behaves as *no filter* —
components lacking a category then survive, contrary to the claim. -/
theorem buildChain_category_filter (fuel : Nat) (s : CState) (sel : Selection)
    (f : CategoryFilter) (u₀ u₁ : Unit) (s₀ s₁ : CState)
    (h₀ : buildChainF fuel s sel CategoryFilter.none = (JsOut.ok u₀, s₀))
    (h₁ : buildChainF fuel s sel f = (JsOut.ok u₁, s₁))
    (hf : f ≠ CategoryFilter.str "") :
    ∀ k c, (k, c) ∈ s₁.chain ↔ ((k, c) ∈ s₀.chain ∧ RetainSpec f c) := by
  obtain ⟨objA, sA₁, sA₂, hsortA, hrunA, hsA⟩ := buildChain_ok_inv h₀
  obtain ⟨objB, sB₁, sB₂, hsortB, hrunB, hsB⟩ := buildChain_ok_inv h₁
  rw [hsortA] at hsortB
  injection hsortB with hres hstate
  injection hres with hobj
  subst hobj
  subst hstate
  rw [hrunA] at hrunB
  injection hrunB with _ hstate₂
  subst hstate₂
  intro k c
  have hchA : s₀.chain = sA₂.chain := by
    rw [hsA]
    exact applyFilter_none sA₂.chain
  have hchB : s₁.chain = applyFilter f sA₂.chain := by rw [hsB]
  rw [hchA, hchB]
  exact mem_applyFilter_iff hf sA₂.chain k c

/-- The manifest for the C7 counterexample: the single component `x` has no
category at all. -/
def c7S : CState := ⟨[("x", mkC none [] [] none [])], [], []⟩

def c7Post : CState := (buildChainF 2 c7S (Selection.list ["x"]) (CategoryFilter.str "")).2

/-- The stamped record of `x` as it sits in the resolved chain. -/
def c7X : Component := ⟨none, none, [], [], none, [], some "x"⟩

/-- Counterexample to C7 as stated: the supplied single-string filter `""`
is falsy, the filter pass is skipped, and the category-less component `x`
is RETAINED — the claim says every component lacking a category is dropped
whenever any filter is supplied. -/
theorem empty_string_filter_keeps_all :
    (buildChainF 2 c7S (Selection.list ["x"]) (CategoryFilter.str "")).1 = JsOut.ok () ∧
    ("x", c7X) ∈ c7Post.chain ∧ c7X.category = Option.none := by decide

/-- Spec scenario 3: `h` has category `tmp`, its dependency `a` has `lib`. -/
def c7W : CState :=
  ⟨[("a", mkC (some "lib") [] [] none []), ("h", mkC (some "tmp") ["a"] [] none [])], [], []⟩

def c7WPost0 : CState := (buildChainF 3 c7W (Selection.list ["h"]) CategoryFilter.none).2

def c7WPost1 : CState := (buildChainF 3 c7W (Selection.list ["h"]) (CategoryFilter.str "tmp")).2

/-- Witness for the amended C7 on spec scenario 3 (filter `tmp`). -/
theorem buildChain_category_filter_witness :
    buildChainF 3 c7W (Selection.list ["h"]) CategoryFilter.none = (JsOut.ok (), c7WPost0) ∧
    buildChainF 3 c7W (Selection.list ["h"]) (CategoryFilter.str "tmp") = (JsOut.ok (), c7WPost1) ∧
    (∀ k c, (k, c) ∈ c7WPost1.chain ↔
      ((k, c) ∈ c7WPost0.chain ∧ RetainSpec (CategoryFilter.str "tmp") c)) := by
  refine ⟨by decide, by decide, ?_⟩
  exact buildChain_category_filter 3 c7W (Selection.list ["h"]) (CategoryFilter.str "tmp")
    () () c7WPost0 c7WPost1 (by decide) (by decide) (by decide)

/-! ### C3: what ordering the chain actually has -/

/-- The comparator order lifted to chain entries. -/
def entryLE (a b : String × Component) : Prop := chainLE a.2 b.2

instance : DecidableRel entryLE := fun a b => by
  unfold entryLE; infer_instance

theorem alookup_of_mem_nodup {α : Type} {m : List (String × α)} {k : String} {v : α}
    (hnd : (m.map Prod.fst).Nodup) (h : (k, v) ∈ m) : alookup m k = some v := by
  induction m with
  | nil => simp at h
  | cons e es ih =>
    obtain ⟨k₁, v₁⟩ := e
    simp only [List.map_cons, List.nodup_cons] at hnd
    rcases List.mem_cons.mp h with h' | h'
    · injection h' with h1 h2
      subst h1
      subst h2
      simp [alookup]
    · have hk : k₁ ≠ k := by
        intro hk
        subst hk
        exact hnd.1 (List.mem_map.mpr ⟨(k₁, v), h', rfl⟩)
      simp [alookup, hk, ih hnd.2 h']

theorem objInsert_self {m : List (String × Component)} {k : String} {v : Component}
    (hnd : (m.map Prod.fst).Nodup) (h : alookup m k = some v) : objInsert m k v = m := by
  rw [objInsert_of_some v (by simp [h])]
  apply updateA_eq_self
  intro v' hv'
  have := alookup_of_mem_nodup hnd hv'
  rw [h] at this
  injection this with this
  exact this.symm

theorem objFoldAux_sorted (W : String → Option Component) :
    ∀ (l : List Component) (m : List (String × Component)),
      List.Pairwise chainLE l →
      (∀ c ∈ l, W (compKey c) = some c) →
      (∀ e ∈ m, W e.1 = some e.2 ∧ compKey e.2 = e.1) →
      (∀ e ∈ m, ∀ c ∈ l, chainLE e.2 c) →
      (m.map Prod.fst).Nodup →
      List.Pairwise entryLE m →
      List.Pairwise entryLE (objFoldAux m l) := by
  intro l
  induction l with
  | nil =>
    intro m _ _ _ _ _ hm
    exact hm
  | cons c cs ih =>
    intro m hsort hWl hWm hrel hnd hm
    simp only [objFoldAux]
    rcases List.pairwise_cons.mp hsort with ⟨hhead, htail⟩
    cases hl : alookup m (compKey c) with
    | some v =>
      have hvW : W (compKey c) = some v := by
        obtain ⟨hW, _⟩ := hWm _ (alookup_mem hl)
        exact hW
      have hvc : v = c := by
        rw [hWl c (List.mem_cons_self _ _)] at hvW
        injection hvW with hvW
        exact hvW.symm
      subst hvc
      rw [objInsert_self hnd hl]
      refine ih m htail (fun c' hc' => hWl c' (List.mem_cons_of_mem _ hc')) hWm ?_ hnd hm
      intro e he c' hc'
      exact hrel e he c' (List.mem_cons_of_mem _ hc')
    | none =>
      rw [objInsert_of_none _ hl]
      refine ih _ htail (fun c' hc' => hWl c' (List.mem_cons_of_mem _ hc')) ?_ ?_ ?_ ?_
      · intro e he
        rcases List.mem_append.mp he with he' | he'
        · exact hWm e he'
        · simp only [List.mem_singleton] at he'
          subst he'
          exact ⟨hWl c (List.mem_cons_self _ _), rfl⟩
      · intro e he c' hc'
        rcases List.mem_append.mp he with he' | he'
        · exact hrel e he' c' (List.mem_cons_of_mem _ hc')
        · simp only [List.mem_singleton] at he'
          subst he'
          exact hhead c' hc'
      · simp only [List.map_append, List.map_cons, List.map_nil]
        refine List.nodup_append.mpr ⟨hnd, List.nodup_singleton _, ?_⟩
        intro k hk
        simp only [List.mem_singleton]
        intro hk'
        subst hk'
        exact absurd ((alookup_isSome_iff m (compKey c)).mpr hk) (by simp [hl])
      · refine List.pairwise_append.mpr ⟨hm, List.pairwise_singleton _ _, ?_⟩
        intro e he e' he'
        simp only [List.mem_singleton] at he'
        subst he'
        exact hrel e he c (List.mem_cons_self _ _)

theorem sortChain_sorted {s : CState} {ks : List String} {obj : List (String × Component)}
    {s' : CState} (h : sortChain s ks = (Except.ok obj, s')) :
    List.Pairwise entryLE obj := by
  unfold sortChain at h
  rcases hg : getComponents s ks with ⟨res, s₀⟩
  rw [hg] at h
  cases res with
  | error e => simp at h
  | ok list =>
    simp only [Prod.mk.injEq, Except.ok.injEq] at h
    obtain ⟨h1, h2⟩ := h
    subst h1
    obtain ⟨hmap, hcur⟩ := getComponents_ok _ _ _ _ hg
    refine objFoldAux_sorted (alookup s₀.manifest) _ [] (List.sorted_insertionSort chainLE list)
      ?_ (by simp) (by simp) (by simp) List.Pairwise.nil
    intro c hc
    obtain ⟨k, hkey, hl⟩ := hcur c ((List.mem_insertionSort chainLE).mp hc)
    rw [compKey_eq hkey]
    exact hl

theorem runAll_append_simple (fuel : Nat) :
    ∀ cs s u s',
      (∀ c ∈ cs, c.require = [] ∧ c.provide = []) →
      (∀ c ∈ cs, alookup s.chain (compKey c) = none) →
      (cs.map compKey).Nodup →
      runAll (addDependency fuel) s cs = (JsOut.ok u, s') →
      s'.chain = s.chain ++ cs.map (fun c => (compKey c, c)) := by
  intro cs
  induction cs with
  | nil =>
    intro s u s' _ _ _ h
    simp only [runAll, Prod.mk.injEq] at h
    rw [← h.2]
    simp
  | cons c cs ih =>
    intro s u s' hedges hfresh hnd h
    cases fuel with
    | zero =>
      simp [runAll, addDependency] at h
    | succ f =>
      simp only [runAll] at h
      have hfr : alookup s.chain (compKey c) = none := hfresh c (List.mem_cons_self _ _)
      have hstep : addDependency (Nat.succ f) s c =
          (JsOut.ok (), { s with chain := objInsert s.chain (compKey c) c }) := by
        rw [addDependency_succ]
        rw [if_neg (by simp [hfr])]
        rw [(hedges c (List.mem_cons_self _ _)).1]
        rw [(hedges c (List.mem_cons_self _ _)).2]
        rfl
      rw [objInsert_of_none _ hfr] at hstep
      rw [hstep] at h
      dsimp only at h
      simp only [List.map_cons, List.nodup_cons] at hnd
      have hres := ih { s with chain := s.chain ++ [(compKey c, c)] } u s'
        (fun c' hc' => hedges c' (List.mem_cons_of_mem _ hc'))
        ?_ hnd.2 h
      · rw [hres]
        simp [List.append_assoc]
      · intro c' hc'
        have h₁ : alookup s.chain (compKey c') = none := hfresh c' (List.mem_cons_of_mem _ hc')
        have h₂ : compKey c ≠ compKey c' := by
          intro hcc
          exact hnd.1 (hcc ▸ List.mem_map.mpr ⟨c', hc', rfl⟩)
        show alookup (s.chain ++ [(compKey c, c)]) (compKey c') = none
        rw [alookup_append, h₁]
        simp [alookup, h₂]

/-- C3 amended.  The code sorts only the SELECTION, before dependency
expansion; the final chain is in expansion order, so it is sorted whenever
expansion adds nothing around the selection.  Precisely: for every manifest
whose components all have empty `require` and `provide` lists, and every
selection, filter and fuel for which `buildChain` succeeds, the chain
entries appear in non-decreasing comparator order — ascending by priority
with `0` and unset priority both falling back to the sentinel `100`
(JS `priority || 100`), ties broken by code-point comparison of
`name || key`, not of the key alone. -/
theorem buildChain_sorted_of_no_edges (fuel : Nat) (s : CState) (sel : Selection)
    (cat : CategoryFilter) (u : Unit) (s' : CState)
    (hM : ∀ k c, (k, c) ∈ s.manifest → c.require = [] ∧ c.provide = [])
    (h : buildChainF fuel s sel cat = (JsOut.ok u, s')) :
    List.Pairwise entryLE s'.chain := by
  obtain ⟨obj, s₁, s₂, hsort, hrun, hs'⟩ := buildChain_ok_inv h
  obtain ⟨hentries, _, hnodup⟩ := sortChain_ok hsort
  obtain ⟨hevS, hchS⟩ := sortChain_evolves hsort
  have hsorted : List.Pairwise entryLE obj := sortChain_sorted hsort
  have hkeys : (obj.map Prod.snd).map compKey = obj.map Prod.fst := by
    rw [List.map_map]
    refine List.map_congr_left ?_
    intro e he
    obtain ⟨k, v⟩ := e
    exact compKey_eq (hentries k v he).1
  have hedges : ∀ c ∈ obj.map Prod.snd, c.require = [] ∧ c.provide = [] := by
    intro c hc
    obtain ⟨⟨k₀, v⟩, hv, hsnd⟩ := List.mem_map.mp hc
    dsimp at hsnd
    subst hsnd
    obtain ⟨k, hkey, hl⟩ := (hentries k₀ v hv).2.1
    have hml : mlook s₁.manifest k = some (stripKey v) := by simp [mlook, hl]
    rw [hevS.1 k] at hml
    simp only [mlook] at hml
    cases hl₀ : alookup ({ s with chain := ([] : List (String × Component)) }).manifest k with
    | none => rw [hl₀] at hml; simp at hml
    | some c₀ =>
      rw [hl₀] at hml
      have hml : stripKey c₀ = stripKey v := by simpa using hml
      have hmem : (k, c₀) ∈ s.manifest := alookup_mem hl₀
      obtain ⟨hr, hp⟩ := hM k c₀ hmem
      constructor
      · rw [← (stripKey_fields v).1, ← hml, (stripKey_fields c₀).1]
        exact hr
      · rw [← (stripKey_fields v).2.1, ← hml, (stripKey_fields c₀).2.1]
        exact hp
  have hfresh : ∀ c ∈ obj.map Prod.snd, alookup s₁.chain (compKey c) = none := by
    intro c hc
    rw [hchS]
    rfl
  have hruneq := runAll_append_simple fuel (obj.map Prod.snd) s₁ () s₂ hedges hfresh
    (by rw [hkeys]; exact hnodup) hrun
  have hs₂chain : s₂.chain = obj := by
    rw [hruneq, hchS]
    show ([] : List (String × Component)) ++ (obj.map Prod.snd).map (fun c => (compKey c, c)) = obj
    rw [List.nil_append, List.map_map]
    have : obj.map ((fun c => (compKey c, c)) ∘ Prod.snd) = obj.map id := by
      refine List.map_congr_left ?_
      intro e he
      obtain ⟨k, v⟩ := e
      simp [compKey_eq (hentries k v he).1]
    rw [this, List.map_id]
  have hfinal : s'.chain = applyFilter cat obj := by
    rw [hs', hs₂chain]
  rw [hfinal]
  unfold applyFilter
  by_cases ht : filterTruthy cat
  · rw [if_pos ht]
    exact hsorted.sublist (List.filter_sublist obj)
  · rw [if_neg ht]
    exact hsorted

/-- The C3 counterexample manifest: `h` (priority unset) requires `z`
(priority unset). -/
def c3S : CState :=
  ⟨[("h", mkC none ["z"] [] none []), ("z", mkC none [] [] none [])], [], []⟩

def c3Post : CState := (buildChainF 5 c3S (Selection.list ["h"]) CategoryFilter.none).2

/-- The order the claim asserts: ascending by `(priority ?? 100, key)`,
ties broken by lexicographic comparison of the KEY. -/
def claimPriKeyLE (a b : String × Component) : Prop :=
  a.2.priority.getD 100 < b.2.priority.getD 100 ∨
    (a.2.priority.getD 100 = b.2.priority.getD 100 ∧ charsLe a.1.data b.1.data = true)

instance : DecidableRel claimPriKeyLE := fun a b => by
  unfold claimPriKeyLE; infer_instance

def c3Z : Component := ⟨none, none, [], [], none, [], some "z"⟩

def c3H : Component := ⟨none, none, ["z"], [], none, [], some "h"⟩

/-- Counterexample to C3 as stated: `buildChain(['h'])` succeeds with chain
order `z, h` — both have priority `100`, and `"h" < "z"`, so the chain is
NOT sorted ascending by `(priority ?? 100, key)`: dependency insertion
overrides the sort, which is applied to the selection only. -/
theorem chain_not_priority_sorted :
    (buildChainF 5 c3S (Selection.list ["h"]) CategoryFilter.none).1 = JsOut.ok () ∧
    c3Post.chain = [("z", c3Z), ("h", c3H)] ∧
    ¬ claimPriKeyLE ("z", c3Z) ("h", c3H) := by decide

/-- A no-edges manifest with priorities `5`, unset, and `-2`. -/
def c3W : CState :=
  ⟨[("b", mkC none [] [] (some 5) []), ("a", mkC none [] [] none []),
    ("c", mkC none [] [] (some (-2)) [])], [], []⟩

def c3WPost : CState := (buildChainF 2 c3W Selection.omitted CategoryFilter.none).2

/-- Witness for the amended C3: with no require/provide edges the chain is
in comparator order (here `c (-2), b (5), a (100)`). -/
theorem buildChain_sorted_of_no_edges_witness :
    (∀ k c, (k, c) ∈ c3W.manifest → c.require = [] ∧ c.provide = []) ∧
    buildChainF 2 c3W Selection.omitted CategoryFilter.none = (JsOut.ok (), c3WPost) ∧
    List.Pairwise entryLE c3WPost.chain := by
  have hM : ∀ k c, (k, c) ∈ c3W.manifest → c.require = [] ∧ c.provide = [] := by
    intro k c hkc
    simp only [c3W, mkC, List.mem_cons, List.not_mem_nil, or_false, Prod.mk.injEq] at hkc
    rcases hkc with ⟨h1, h2⟩ | ⟨h1, h2⟩ | ⟨h1, h2⟩ <;> subst h2 <;> exact ⟨rfl, rfl⟩
  refine ⟨hM, by decide, ?_⟩
  exact buildChain_sorted_of_no_edges 2 c3W Selection.omitted CategoryFilter.none ()
    c3WPost hM (by decide)

/-! ### C8: resolving twice yields an identical chain -/

/-- Two manifests that agree up to key stamping: same key order, same
lookups after forgetting the `key` field.  A run on either produces the
same results, since `getComponent` re-stamps every record it reads. -/
def MEq (m₁ m₂ : List (String × Component)) : Prop :=
  m₁.map Prod.fst = m₂.map Prod.fst ∧ ∀ k, mlook m₁ k = mlook m₂ k

theorem meq_symm {m₁ m₂ : List (String × Component)} (h : MEq m₁ m₂) : MEq m₂ m₁ :=
  ⟨h.1.symm, fun k => (h.2 k).symm⟩

theorem meq_trans {m₁ m₂ m₃ : List (String × Component)} (h₁ : MEq m₁ m₂)
    (h₂ : MEq m₂ m₃) : MEq m₁ m₃ :=
  ⟨h₁.1.trans h₂.1, fun k => (h₁.2 k).trans (h₂.2 k)⟩

theorem meq_of_evolves {s s' : CState} (h : Evolves s s') : MEq s'.manifest s.manifest :=
  ⟨h.2.1, h.1⟩

theorem getComponent_sim {s t : CState} {k : String} {rs rt : Except JsError Component}
    {s' t' : CState} (hm : MEq s.manifest t.manifest) (hc : s.chain = t.chain)
    (hgs : getComponent s k = (rs, s')) (hgt : getComponent t k = (rt, t')) :
    rs = rt ∧ s'.chain = t'.chain ∧ MEq s'.manifest t'.manifest := by
  cases rs with
  | error e₁ =>
    obtain ⟨he₁, hs₁, hl₁⟩ := getComponent_error hgs
    cases rt with
    | error e₂ =>
      obtain ⟨he₂, hs₂, hl₂⟩ := getComponent_error hgt
      subst hs₁
      subst hs₂
      subst he₁
      subst he₂
      exact ⟨rfl, hc, hm⟩
    | ok c₂ =>
      obtain ⟨hk₂, hl₂, hml₂, _, _⟩ := getComponent_ok hgt
      have hcontr := hm.2 k
      rw [hml₂] at hcontr
      rw [mlook, hl₁] at hcontr
      simp at hcontr
  | ok c₁ =>
    obtain ⟨hk₁, hl₁, hml₁, hch₁, hev₁⟩ := getComponent_ok hgs
    cases rt with
    | error e₂ =>
      obtain ⟨he₂, hs₂, hl₂⟩ := getComponent_error hgt
      have hcontr := hm.2 k
      rw [hml₁] at hcontr
      rw [mlook, hl₂] at hcontr
      simp at hcontr
    | ok c₂ =>
      obtain ⟨hk₂, hl₂, hml₂, hch₂, hev₂⟩ := getComponent_ok hgt
      have hstrip : stripKey c₁ = stripKey c₂ := by
        have := (hm.2 k).symm.trans hml₁
        rw [hml₂] at this
        injection this with this
        exact this.symm
      have hceq : c₁ = c₂ := by
        have h1 : ({ c₁ with key := some k } : Component) = { c₂ with key := some k } :=
          stamp_eq_of_stripKey_eq hstrip _
        rw [stamp_self hk₁, stamp_self hk₂] at h1
        exact h1
      subst hceq
      refine ⟨rfl, by rw [hch₁, hch₂, hc], ?_⟩
      exact meq_trans (meq_of_evolves hev₁) (meq_trans hm (meq_symm (meq_of_evolves hev₂)))

theorem stepKeys_sim (fuel : Nat)
    (ih : ∀ s t c rs ss rt ts, MEq s.manifest t.manifest → s.chain = t.chain →
      addDependency fuel s c = (rs, ss) → addDependency fuel t c = (rt, ts) →
      rs = rt ∧ ss.chain = ts.chain ∧ MEq ss.manifest ts.manifest) :
    ∀ ks s t rs ss rt ts, MEq s.manifest t.manifest → s.chain = t.chain →
      stepKeys (addDependency fuel) s ks = (rs, ss) →
      stepKeys (addDependency fuel) t ks = (rt, ts) →
      rs = rt ∧ ss.chain = ts.chain ∧ MEq ss.manifest ts.manifest := by
  intro ks
  induction ks with
  | nil =>
    intro s t rs ss rt ts hm hc hs ht
    simp only [stepKeys, Prod.mk.injEq] at hs ht
    obtain ⟨hs1, hs2⟩ := hs
    obtain ⟨ht1, ht2⟩ := ht
    subst hs2
    subst ht2
    rw [← hs1, ← ht1]
    exact ⟨rfl, hc, hm⟩
  | cons k ks ihl =>
    intro s t rs ss rt ts hm hc hs ht
    simp only [stepKeys] at hs ht
    rcases hgs : getComponent s k with ⟨res, s₀⟩
    rcases hgt : getComponent t k with ⟨ret, t₀⟩
    rw [hgs] at hs
    rw [hgt] at ht
    obtain ⟨hres, hch₀, hm₀⟩ := getComponent_sim hm hc hgs hgt
    cases res with
    | error e =>
      rw [← hres] at ht
      cases hs
      cases ht
      exact ⟨rfl, hch₀, hm₀⟩
    | ok c =>
      rw [← hres] at ht
      dsimp only at hs ht
      rcases hfs : addDependency fuel s₀ c with ⟨frs, s₁⟩
      rcases hft : addDependency fuel t₀ c with ⟨frt, t₁⟩
      rw [hfs] at hs
      rw [hft] at ht
      obtain ⟨hfr, hch₁, hm₁⟩ := ih s₀ t₀ c _ _ _ _ hm₀ hch₀ hfs hft
      cases frs with
      | ok u =>
        rw [← hfr] at ht
        exact ihl s₁ t₁ _ _ _ _ hm₁ hch₁ hs ht
      | err e =>
        rw [← hfr] at ht
        cases hs
        cases ht
        exact ⟨rfl, hch₁, hm₁⟩
      | diverge =>
        rw [← hfr] at ht
        cases hs
        cases ht
        exact ⟨rfl, hch₁, hm₁⟩

theorem addDependency_sim :
    ∀ fuel s t c rs ss rt ts, MEq s.manifest t.manifest → s.chain = t.chain →
      addDependency fuel s c = (rs, ss) → addDependency fuel t c = (rt, ts) →
      rs = rt ∧ ss.chain = ts.chain ∧ MEq ss.manifest ts.manifest := by
  intro fuel
  induction fuel with
  | zero =>
    intro s t c rs ss rt ts hm hc hs ht
    simp only [addDependency, Prod.mk.injEq] at hs ht
    obtain ⟨hs1, hs2⟩ := hs
    obtain ⟨ht1, ht2⟩ := ht
    subst hs2
    subst ht2
    rw [← hs1, ← ht1]
    exact ⟨rfl, hc, hm⟩
  | succ fuel ih =>
    intro s t c rs ss rt ts hm hc hs ht
    rw [addDependency_succ] at hs ht
    rw [hc] at hs
    by_cases hg : (alookup t.chain (compKey c)).isSome
    · rw [if_pos hg] at hs ht
      simp only [Prod.mk.injEq] at hs ht
      obtain ⟨hs1, hs2⟩ := hs
      obtain ⟨ht1, ht2⟩ := ht
      subst hs2
      subst ht2
      rw [← hs1, ← ht1]
      exact ⟨rfl, hc, hm⟩
    · rw [if_neg hg] at hs ht
      rcases hfs : stepKeys (addDependency fuel) s c.require with ⟨frs, s₁⟩
      rcases hft : stepKeys (addDependency fuel) t c.require with ⟨frt, t₁⟩
      rw [hfs] at hs
      rw [hft] at ht
      obtain ⟨hfr, hch₁, hm₁⟩ := stepKeys_sim fuel ih c.require s t _ _ _ _ hm hc hfs hft
      cases frs with
      | ok u =>
        rw [← hfr] at ht
        dsimp only at hs ht
        exact stepKeys_sim fuel ih c.provide
          { s₁ with chain := objInsert s₁.chain (compKey c) c }
          { t₁ with chain := objInsert t₁.chain (compKey c) c }
          _ _ _ _ hm₁
          (show objInsert s₁.chain (compKey c) c = objInsert t₁.chain (compKey c) c by
            rw [hch₁]) hs ht
      | err e =>
        rw [← hfr] at ht
        cases hs
        cases ht
        exact ⟨rfl, hch₁, hm₁⟩
      | diverge =>
        rw [← hfr] at ht
        cases hs
        cases ht
        exact ⟨rfl, hch₁, hm₁⟩

theorem runAll_sim (fuel : Nat) :
    ∀ cs s t rs ss rt ts, MEq s.manifest t.manifest → s.chain = t.chain →
      runAll (addDependency fuel) s cs = (rs, ss) →
      runAll (addDependency fuel) t cs = (rt, ts) →
      rs = rt ∧ ss.chain = ts.chain ∧ MEq ss.manifest ts.manifest := by
  intro cs
  induction cs with
  | nil =>
    intro s t rs ss rt ts hm hc hs ht
    simp only [runAll, Prod.mk.injEq] at hs ht
    obtain ⟨hs1, hs2⟩ := hs
    obtain ⟨ht1, ht2⟩ := ht
    subst hs2
    subst ht2
    rw [← hs1, ← ht1]
    exact ⟨rfl, hc, hm⟩
  | cons c cs ihl =>
    intro s t rs ss rt ts hm hc hs ht
    simp only [runAll] at hs ht
    rcases hfs : addDependency fuel s c with ⟨frs, s₁⟩
    rcases hft : addDependency fuel t c with ⟨frt, t₁⟩
    rw [hfs] at hs
    rw [hft] at ht
    obtain ⟨hfr, hch₁, hm₁⟩ := addDependency_sim fuel s t c _ _ _ _ hm hc hfs hft
    cases frs with
    | ok u =>
      rw [← hfr] at ht
      exact ihl s₁ t₁ _ _ _ _ hm₁ hch₁ hs ht
    | err e =>
      rw [← hfr] at ht
      cases hs
      cases ht
      exact ⟨rfl, hch₁, hm₁⟩
    | diverge =>
      rw [← hfr] at ht
      cases hs
      cases ht
      exact ⟨rfl, hch₁, hm₁⟩

theorem getComponents_sim :
    ∀ ks s t rs ss rt ts, MEq s.manifest t.manifest → s.chain = t.chain →
      getComponents s ks = (rs, ss) → getComponents t ks = (rt, ts) →
      rs = rt ∧ ss.chain = ts.chain ∧ MEq ss.manifest ts.manifest := by
  intro ks
  induction ks with
  | nil =>
    intro s t rs ss rt ts hm hc hs ht
    simp only [getComponents, Prod.mk.injEq] at hs ht
    obtain ⟨hs1, hs2⟩ := hs
    obtain ⟨ht1, ht2⟩ := ht
    subst hs2
    subst ht2
    rw [← hs1, ← ht1]
    exact ⟨rfl, hc, hm⟩
  | cons k ks ihl =>
    intro s t rs ss rt ts hm hc hs ht
    simp only [getComponents] at hs ht
    rcases hgs : getComponent s k with ⟨res, s₀⟩
    rcases hgt : getComponent t k with ⟨ret, t₀⟩
    rw [hgs] at hs
    rw [hgt] at ht
    obtain ⟨hres, hch₀, hm₀⟩ := getComponent_sim hm hc hgs hgt
    cases res with
    | error e =>
      rw [← hres] at ht
      cases hs
      cases ht
      exact ⟨rfl, hch₀, hm₀⟩
    | ok c =>
      rw [← hres] at ht
      dsimp only at hs ht
      rcases hfs : getComponents s₀ ks with ⟨frs, s₁⟩
      rcases hft : getComponents t₀ ks with ⟨frt, t₁⟩
      rw [hfs] at hs
      rw [hft] at ht
      obtain ⟨hfr, hch₁, hm₁⟩ := ihl s₀ t₀ _ _ _ _ hm₀ hch₀ hfs hft
      cases frs with
      | error e =>
        rw [← hfr] at ht
        cases hs
        cases ht
        exact ⟨rfl, hch₁, hm₁⟩
      | ok cs' =>
        rw [← hfr] at ht
        dsimp only at hs ht
        cases hs
        cases ht
        exact ⟨rfl, hch₁, hm₁⟩

theorem sortChain_sim {ks : List String} {s t : CState}
    {rs rt : Except JsError (List (String × Component))} {ss ts : CState}
    (hm : MEq s.manifest t.manifest) (hc : s.chain = t.chain)
    (hs : sortChain s ks = (rs, ss)) (ht : sortChain t ks = (rt, ts)) :
    rs = rt ∧ ss.chain = ts.chain ∧ MEq ss.manifest ts.manifest := by
  unfold sortChain at hs ht
  rcases hgs : getComponents s ks with ⟨res, s₀⟩
  rcases hgt : getComponents t ks with ⟨ret, t₀⟩
  rw [hgs] at hs
  rw [hgt] at ht
  obtain ⟨hres, hch₀, hm₀⟩ := getComponents_sim ks s t _ _ _ _ hm hc hgs hgt
  cases res with
  | error e =>
    rw [← hres] at ht
    cases hs
    cases ht
    exact ⟨rfl, hch₀, hm₀⟩
  | ok list =>
    rw [← hres] at ht
    dsimp only at hs ht
    cases hs
    cases ht
    exact ⟨rfl, hch₀, hm₀⟩

theorem normalizeSelection_congr {s t : CState}
    (h : s.manifest.map Prod.fst = t.manifest.map Prod.fst) (sel : Selection) :
    normalizeSelection s sel = normalizeSelection t sel := by
  cases sel with
  | omitted => exact h
  | str v =>
    simp only [normalizeSelection]
    by_cases hv : v = "" <;> simp [hv, h]
  | list l => rfl

theorem buildChainF_sim (fuel : Nat) (sel : Selection) (cat : CategoryFilter)
    {s t : CState} {rs rt : JsOut Unit} {ss ts : CState}
    (hm : MEq s.manifest t.manifest)
    (hs : buildChainF fuel s sel cat = (rs, ss))
    (ht : buildChainF fuel t sel cat = (rt, ts)) :
    rs = rt ∧ ss.chain = ts.chain ∧ MEq ss.manifest ts.manifest := by
  simp only [buildChainF] at hs ht
  rw [normalizeSelection_congr hm.1 sel] at hs
  rcases hss : sortChain { s with chain := [] } (normalizeSelection t sel) with ⟨res, s₁⟩
  rcases hst : sortChain { t with chain := [] } (normalizeSelection t sel) with ⟨ret, t₁⟩
  rw [hss] at hs
  rw [hst] at ht
  obtain ⟨hres, hch₁, hm₁⟩ := sortChain_sim (s := { s with chain := [] })
    (t := { t with chain := [] }) hm rfl hss hst
  cases res with
  | error e =>
    rw [← hres] at ht
    cases hs
    cases ht
    exact ⟨rfl, hch₁, hm₁⟩
  | ok obj =>
    rw [← hres] at ht
    dsimp only at hs ht
    rcases hrs : runAll (addDependency fuel) s₁ (obj.map Prod.snd) with ⟨frs, s₂⟩
    rcases hrt : runAll (addDependency fuel) t₁ (obj.map Prod.snd) with ⟨frt, t₂⟩
    rw [hrs] at hs
    rw [hrt] at ht
    obtain ⟨hfr, hch₂, hm₂⟩ := runAll_sim fuel (obj.map Prod.snd) s₁ t₁ _ _ _ _ hm₁ hch₁ hrs hrt
    cases frs with
    | ok u =>
      rw [← hfr] at ht
      cases hs
      cases ht
      refine ⟨rfl, ?_, hm₂⟩
      show applyFilter cat s₂.chain = applyFilter cat t₂.chain
      rw [hch₂]
    | err e =>
      rw [← hfr] at ht
      cases hs
      cases ht
      exact ⟨rfl, hch₂, hm₂⟩
    | diverge =>
      rw [← hfr] at ht
      cases hs
      cases ht
      exact ⟨rfl, hch₂, hm₂⟩

/-- C8.  Calling `buildChain` twice in succession with the manifest
otherwise untouched and the identical selection and filter yields identical
chains: the second call also succeeds and stores the very same chain (same
keys, same order, same records).  The only state the first call changed is
the `key` stamping, which `getComponent` reproduces identically. -/
theorem buildChain_idempotent (fuel : Nat) (s : CState) (sel : Selection)
    (cat : CategoryFilter) (u : Unit) (s₁ : CState)
    (h : buildChainF fuel s sel cat = (JsOut.ok u, s₁)) :
    ∃ s₂, buildChainF fuel s₁ sel cat = (JsOut.ok u, s₂) ∧ s₂.chain = s₁.chain := by
  have hst := buildChain_frame_cur fuel s sel cat u s₁ h
  have hMEq : MEq s₁.manifest s.manifest := ⟨hst.2.1, hst.1⟩
  rcases h₂ : buildChainF fuel s₁ sel cat with ⟨r₂, s₂⟩
  obtain ⟨hr, hchain, _⟩ := buildChainF_sim fuel sel cat hMEq h₂ h
  refine ⟨s₂, ?_, hchain⟩
  rw [hr]

/-- Witness for C8: rebuilding the spec's example chain from the
post-resolution state reproduces it exactly. -/
theorem buildChain_idempotent_witness :
    buildChainF 10 demoS (Selection.list ["h"]) CategoryFilter.none = (JsOut.ok (), demoPost) ∧
    (∃ s₂, buildChainF 10 demoPost (Selection.list ["h"]) CategoryFilter.none =
      (JsOut.ok (), s₂) ∧ s₂.chain = demoPost.chain) :=
  ⟨by decide,
   buildChain_idempotent 10 demoS (Selection.list ["h"]) CategoryFilter.none () demoPost
     (by decide)⟩

end Compartment
